import Mathlib

set_option linter.unusedVariables false
set_option linter.unreachableTactic false
set_option linter.unusedTactic false

/-!
Verification of the poker-bots-playground match engine core.

The definitions below are a shallow embedding of the Python sources
`backend/app/engine/game.py`, `backend/app/bots/runtime.py`,
`backend/app/bots/validator.py`, `backend/app/bots/protocol.py` and
`backend/app/services/match_service.py`.  Machine integers are modelled
as `Int` (Python ints are unbounded), money amounts in cents.
-/

namespace PokerBots

/-- Pointwise update of a seat-indexed map, mirroring a Python dict write
`m[s] = v` for dicts whose key set we track separately. -/
def upd (f : Nat → Int) (s : Nat) (v : Int) : Nat → Int :=
  fun t => if t = s then v else f t

@[simp] theorem upd_same (f : Nat → Int) (s : Nat) (v : Int) : upd f s v s = v := by
  simp [upd]

theorem upd_other (f : Nat → Int) (s : Nat) (v : Int) (t : Nat) (h : t ≠ s) :
    upd f s v t = f t := by
  simp [upd, h]

/-! ## Actions and the action normalizer (`game.py`)

Python represents engine actions by the strings `"fold"`, `"check"`,
`"call"`, `"bet"`, `"raise"`; we use an inductive type with one
constructor per string. -/

inductive PAct where
  | pfold
  | pcheck
  | pcall
  | pbet
  | praise
deriving DecidableEq, Repr

open PAct

/-- A raw bot response as seen by `normalize_action`.  A Python value that
is not a dict is `notDict`.  For a dict, `action` is `some a` exactly when
the value under key `"action"` is one of the five action strings (any
other value, including a missing key or a non-string, behaves uniformly
as `none` because the code only tests membership in that five-string
set).  `amount` is the result of `int(raw["amount"])` with the dict
default `0` for a missing key; `none` records that `int(...)` raises
`TypeError` or `ValueError`. -/
inductive RawAction where
  | notDict
  | act (action : Option PAct) (amount : Option Int)
deriving DecidableEq, Repr

/-- `legal_actions` from `game.py`. -/
def legal_actions (to_call stack current_bet : Int) : List PAct :=
  if 0 < to_call then
    [pfold, pcall] ++ (if to_call < stack then [praise] else [])
  else
    [pcheck] ++ (if 0 < stack then [pbet] else [])

/-- `min_raise_to` from `game.py`. -/
def min_raise_to (current_bet min_raise : Int) : Int :=
  if current_bet = 0 then min_raise else current_bet + min_raise

/-- `_fallback_action` from `game.py`. -/
def fallback_action (to_call : Int) : PAct × Int :=
  if 0 < to_call then (pfold, 0) else (pcheck, 0)

/-- The `bet`/`raise` tail of `normalize_action` (everything from
`max_total = bet + stack` on), for a coerced action `a ∈ {pbet, praise}`. -/
def normalize_bet_raise (a : PAct) (amount : Option Int)
    (to_call current_bet mrt stack bet : Int) : PAct × Int :=
  let max_total := bet + stack
  if max_total ≤ current_bet then
    if 0 < to_call then (pcall, min to_call stack) else (pcheck, 0)
  else
    let d0 := amount.getD mrt
    let d1 := if d0 < mrt then (if mrt ≤ max_total then mrt else max_total) else d0
    let d2 := if max_total < d1 then max_total else d1
    if d2 ≤ current_bet then
      if 0 < to_call then (pcall, min to_call stack) else (pcheck, 0)
    else (a, d2)

/-- The `bet`/`raise` and `check`/`call` coercion chain of
`normalize_action` (the four `elif` branches rewriting `action`). -/
def coerce_action (a0 : PAct) (to_call current_bet : Int) : PAct :=
  if a0 = pbet ∧ 0 < current_bet then praise
  else if a0 = praise ∧ current_bet = 0 then pbet
  else if a0 = pcheck ∧ 0 < to_call then pcall
  else if a0 = pcall ∧ to_call ≤ 0 then pcheck
  else a0

/-- The part of `normalize_action` after coercion: the legality test and
the per-action return branches. -/
def normalize_checked (a : PAct) (amount : Option Int)
    (to_call current_bet mrt stack bet : Int) (legal : List PAct) : PAct × Int :=
  if a ∉ legal then fallback_action to_call
  else
    match a with
    | .pfold => if to_call = 0 then (pcheck, 0) else (pfold, 0)
    | .pcheck => (pcheck, 0)
    | .pcall => (pcall, min to_call stack)
    | _ => normalize_bet_raise a amount to_call current_bet mrt stack bet

/-- `normalize_action` from `game.py`.  The `mrt` argument is the
`min_raise_to` parameter. -/
def normalize_action (raw : RawAction)
    (to_call current_bet mrt stack bet : Int) (legal : List PAct) : PAct × Int :=
  match raw with
  | .notDict => fallback_action to_call
  | .act none _ => fallback_action to_call
  | .act (some a0) amount =>
    normalize_checked (coerce_action a0 to_call current_bet) amount
      to_call current_bet mrt stack bet legal

/-! Basic facts about `legal_actions` membership. -/

theorem mem_legal_pfold {t s c : Int} : pfold ∈ legal_actions t s c ↔ 0 < t := by
  simp only [legal_actions]
  split_ifs <;> simp_all

theorem mem_legal_pcheck {t s c : Int} : pcheck ∈ legal_actions t s c ↔ t ≤ 0 := by
  simp only [legal_actions]
  split_ifs <;> simp_all <;> omega

theorem mem_legal_pcall {t s c : Int} : pcall ∈ legal_actions t s c ↔ 0 < t := by
  simp only [legal_actions]
  split_ifs <;> simp_all

theorem mem_legal_praise {t s c : Int} : praise ∈ legal_actions t s c ↔ 0 < t ∧ t < s := by
  simp only [legal_actions]
  split_ifs <;> simp_all

theorem mem_legal_pbet {t s c : Int} : pbet ∈ legal_actions t s c ↔ t ≤ 0 ∧ 0 < s := by
  simp only [legal_actions]
  split_ifs <;> simp_all <;> omega

theorem fallback_action_cases (t : Int) :
    fallback_action t = (pfold, 0) ∧ 0 < t ∨
      fallback_action t = (pcheck, 0) ∧ t ≤ 0 := by
  unfold fallback_action
  split_ifs with h
  · exact Or.inl ⟨rfl, h⟩
  · exact Or.inr ⟨rfl, by omega⟩

theorem normalize_bet_raise_cases (a : PAct) (amt : Option Int) (t c mrt s b : Int) :
    normalize_bet_raise a amt t c mrt s b = (pcall, min t s) ∧ 0 < t ∨
    normalize_bet_raise a amt t c mrt s b = (pcheck, 0) ∧ t ≤ 0 ∨
    (∃ amt2, normalize_bet_raise a amt t c mrt s b = (a, amt2) ∧
      c < amt2 ∧ amt2 ≤ b + s ∧ min mrt (b + s) ≤ amt2) := by
  unfold normalize_bet_raise
  simp only []
  split_ifs with h1 h2 h3 h4 h5 h6 h7 h8 h9 h10 h11 h12 h13 h14 h15 <;>
    first
    | exact Or.inl ⟨rfl, by omega⟩
    | exact Or.inr (Or.inl ⟨rfl, by omega⟩)
    | exact Or.inr (Or.inr ⟨_, rfl, by omega, by omega,
        by rw [min_def] ; split_ifs <;> omega⟩)

theorem normalize_checked_cases (a : PAct) (amt : Option Int) (t c mrt s b : Int) :
    normalize_checked a amt t c mrt s b (legal_actions t s c) = (pfold, 0) ∧ 0 < t ∨
    normalize_checked a amt t c mrt s b (legal_actions t s c) = (pcheck, 0) ∧ t ≤ 0 ∨
    normalize_checked a amt t c mrt s b (legal_actions t s c) = (pcall, min t s) ∧ 0 < t ∨
    (∃ a2 amt2,
      normalize_checked a amt t c mrt s b (legal_actions t s c) = (a2, amt2) ∧
      (a2 = pbet ∨ a2 = praise) ∧ a2 ∈ legal_actions t s c ∧
      c < amt2 ∧ amt2 ≤ b + s ∧ min mrt (b + s) ≤ amt2) := by
  unfold normalize_checked
  by_cases hmem : a ∈ legal_actions t s c
  · rw [if_neg (not_not_intro hmem)]
    cases a with
    | pfold =>
      have ht := mem_legal_pfold.mp hmem
      rw [if_neg (by omega : ¬ t = 0)]
      exact Or.inl ⟨rfl, ht⟩
    | pcheck =>
      exact Or.inr (Or.inl ⟨rfl, mem_legal_pcheck.mp hmem⟩)
    | pcall =>
      exact Or.inr (Or.inr (Or.inl ⟨rfl, mem_legal_pcall.mp hmem⟩))
    | pbet =>
      rcases normalize_bet_raise_cases pbet amt t c mrt s b with
        ⟨he, hp⟩ | ⟨he, hp⟩ | ⟨amt2, he, hp⟩
      · exact Or.inr (Or.inr (Or.inl ⟨he, hp⟩))
      · exact Or.inr (Or.inl ⟨he, hp⟩)
      · exact Or.inr (Or.inr (Or.inr ⟨pbet, amt2, he, Or.inl rfl, hmem, hp⟩))
    | praise =>
      rcases normalize_bet_raise_cases praise amt t c mrt s b with
        ⟨he, hp⟩ | ⟨he, hp⟩ | ⟨amt2, he, hp⟩
      · exact Or.inr (Or.inr (Or.inl ⟨he, hp⟩))
      · exact Or.inr (Or.inl ⟨he, hp⟩)
      · exact Or.inr (Or.inr (Or.inr ⟨praise, amt2, he, Or.inr rfl, hmem, hp⟩))
  · rw [if_pos hmem]
    rcases fallback_action_cases t with ⟨he, hp⟩ | ⟨he, hp⟩
    · exact Or.inl ⟨he, hp⟩
    · exact Or.inr (Or.inl ⟨he, hp⟩)

/-- Exhaustive case analysis of `normalize_action` when the `legal`
argument is the engine-supplied `legal_actions to_call stack current_bet`
(exactly how `_run_betting_round` calls it). -/
theorem normalize_action_cases (raw : RawAction) (t c mrt s b : Int) :
    normalize_action raw t c mrt s b (legal_actions t s c) = (pfold, 0) ∧ 0 < t ∨
    normalize_action raw t c mrt s b (legal_actions t s c) = (pcheck, 0) ∧ t ≤ 0 ∨
    normalize_action raw t c mrt s b (legal_actions t s c) = (pcall, min t s) ∧ 0 < t ∨
    (∃ a amt, normalize_action raw t c mrt s b (legal_actions t s c) = (a, amt) ∧
      (a = pbet ∨ a = praise) ∧ a ∈ legal_actions t s c ∧
      c < amt ∧ amt ≤ b + s ∧ min mrt (b + s) ≤ amt) := by
  match raw with
  | .notDict =>
    rcases fallback_action_cases t with ⟨he, hp⟩ | ⟨he, hp⟩
    · exact Or.inl ⟨he, hp⟩
    · exact Or.inr (Or.inl ⟨he, hp⟩)
  | .act none amt =>
    rcases fallback_action_cases t with ⟨he, hp⟩ | ⟨he, hp⟩
    · exact Or.inl ⟨he, hp⟩
    · exact Or.inr (Or.inl ⟨he, hp⟩)
  | .act (some a0) amt =>
    exact normalize_checked_cases (coerce_action a0 t c) amt t c mrt s b

/-- C3 counterexample.  Context: `current_bet = 0`, `bet = 0`,
`stack = 60`, `min_raise_to = 100`, `to_call = current_bet - bet = 0`,
`legal = legal_actions 0 60 0 = [check, bet]`.  The bot requests
`{action: "bet", amount: 60}`.  `normalize_action` returns the
non-degraded action `bet` with amount `60`, which is below
`min_raise_to = 100`, so the returned amount is not in the claimed
interval `[min_raise_to, bet + stack] = [100, 60]`. -/
theorem normalize_action_below_min_raise_cex :
    normalize_action (RawAction.act (some pbet) (some 60)) 0 0 100 60 0
      (legal_actions 0 60 0) = (pbet, 60) ∧
    ¬ ((100 : Int) ≤ 60) := by
  constructor
  · rfl
  · decide

/-- C3 (amended).  For every raw bot response and every round context
with `legal = legal_actions to_call stack current_bet`,
`to_call = current_bet - bet` and `stack ≥ 0`: the returned action is a
member of `legal`; a requested fold when `to_call = 0` comes back as a
check; a returned call carries amount `min to_call stack`; and a
returned (non-degraded) bet or raise carries an amount in
`[min (min_raise_to) (bet + stack), bet + stack]` that strictly exceeds
`current_bet` (the lower end is `min_raise_to` when reachable, else the
all-in total `bet + stack`). -/
theorem normalize_action_legal (raw : RawAction) (t c mrt s b : Int)
    (ht : t = c - b) (hs : 0 ≤ s) :
    (normalize_action raw t c mrt s b (legal_actions t s c)).1 ∈ legal_actions t s c ∧
    ((∃ amt0, raw = RawAction.act (some pfold) amt0) → t = 0 →
      normalize_action raw t c mrt s b (legal_actions t s c) = (pcheck, 0)) ∧
    (∀ amt, normalize_action raw t c mrt s b (legal_actions t s c) = (pcall, amt) →
      amt = min t s) ∧
    (∀ a amt, normalize_action raw t c mrt s b (legal_actions t s c) = (a, amt) →
      a = pbet ∨ a = praise →
      min mrt (b + s) ≤ amt ∧ amt ≤ b + s ∧ c < amt) := by
  refine ⟨?_, ?_, ?_, ?_⟩
  · rcases normalize_action_cases raw t c mrt s b with
      ⟨he, hp⟩ | ⟨he, hp⟩ | ⟨he, hp⟩ | ⟨a, amt, he, hab, hmem, hp⟩
    · rw [he]; exact mem_legal_pfold.mpr hp
    · rw [he]; exact mem_legal_pcheck.mpr hp
    · rw [he]; exact mem_legal_pcall.mpr hp
    · rw [he]; exact hmem
  · rintro ⟨amt0, rfl⟩ ht0
    subst ht0
    have hco : coerce_action pfold 0 c = pfold := by
      unfold coerce_action
      simp
    show normalize_checked (coerce_action pfold 0 c) amt0 0 c mrt s b
      (legal_actions 0 s c) = (pcheck, 0)
    rw [hco]
    unfold normalize_checked
    rw [if_pos (by rw [mem_legal_pfold] ; omega)]
    unfold fallback_action
    rw [if_neg (by omega)]
  · intro amt he
    rcases normalize_action_cases raw t c mrt s b with
      ⟨he2, hp⟩ | ⟨he2, hp⟩ | ⟨he2, hp⟩ | ⟨a2, amt2, he2, hab, hmem, hp⟩
    · rw [he] at he2; cases he2
    · rw [he] at he2; cases he2
    · rw [he] at he2
      exact (Prod.mk.injEq _ _ _ _ ▸ he2).2.symm ▸ rfl
    · rw [he] at he2
      have := (Prod.mk.injEq _ _ _ _ ▸ he2).1
      rcases hab with h | h <;> simp [h] at this
  · intro a amt he hab
    rcases normalize_action_cases raw t c mrt s b with
      ⟨he2, hp⟩ | ⟨he2, hp⟩ | ⟨he2, hp⟩ | ⟨a2, amt2, he2, hab2, hmem, hp⟩
    · rw [he] at he2
      have := (Prod.mk.injEq _ _ _ _ ▸ he2).1
      rcases hab with h | h <;> simp [h] at this
    · rw [he] at he2
      have := (Prod.mk.injEq _ _ _ _ ▸ he2).1
      rcases hab with h | h <;> simp [h] at this
    · rw [he] at he2
      have := (Prod.mk.injEq _ _ _ _ ▸ he2).1
      rcases hab with h | h <;> simp [h] at this
    · rw [he] at he2
      have h1 := (Prod.mk.injEq _ _ _ _ ▸ he2).1
      have h2 := (Prod.mk.injEq _ _ _ _ ▸ he2).2
      subst h2
      exact ⟨hp.2.2, hp.2.1, hp.1⟩

/-- Witness for `normalize_action_legal` at a concrete context:
facing a bet of 100 with 50 already in, a raise request to 300 is legal. -/
theorem normalize_action_legal_witness :
    (normalize_action (RawAction.act (some praise) (some 300)) 50 100 200 1000 50
      (legal_actions 50 1000 100)).1 ∈ legal_actions 50 1000 100 :=
  (normalize_action_legal (RawAction.act (some praise) (some 300)) 50 100 200 1000 50
    (by decide) (by decide)).1

/-! ## `BotRunner.act` (`runtime.py`) -/

def MAX_STATE_BYTES : Nat := 64 * 1024

/-- Result of `json.dumps(state, separators=(",", ":"), default=str)`:
either the serialized payload or an exception (non-serializable state). -/
inductive Serialization where
  | ok (payload : String)
  | failure
deriving DecidableEq

/-- Which runtime branch `act` takes, determined by the
`bot_archive_path` and `bot` fields of the `BotRunner` dataclass. -/
inductive RunnerMode where
  | subprocessRun
  | inProcess
  | unavailable
deriving DecidableEq

/-- Shape of the `(result, error)` pair produced by `_act_in_process` or
`_act_in_subprocess` when the bot is actually invoked.  `reply` models a
dict result: `action` is `some a` when the value under `"action"` is a
string, `none` otherwise (incl. missing); `amount` is the
`int(...)`-conversion of the value under `"amount"` (dict default `0`),
with `none` when the conversion raises. -/
inductive CallOutcome where
  | err (e : String)
  | notDict
  | reply (action : Option String) (amount : Option Int)
deriving DecidableEq

/-- The dict returned by `BotRunner.act`. -/
structure ActResult where
  action : String
  amount : Int
  error : Option String
deriving DecidableEq, Repr

/-- `_fallback` from `runtime.py`. -/
def runner_fallback (e : String) : ActResult := ⟨"fold", 0, some e⟩

/-- `BotRunner.act` from `runtime.py`, with one extra output: the number
of times the bot is invoked (an in-process `bot.act` call or a sandbox
subprocess launch).  The serialization of the state and the outcome of
the possible bot call are oracle inputs. -/
def runner_act (ser : Serialization) (mode : RunnerMode) (outcome : CallOutcome) :
    ActResult × Nat :=
  match ser with
  | .failure => (runner_fallback "invalid_state", 0)
  | .ok payload =>
    if MAX_STATE_BYTES < payload.length then (runner_fallback "state_too_large", 0)
    else
      match mode with
      | .unavailable => (runner_fallback "runtime_unavailable", 0)
      | _ =>
        match outcome with
        | .err e => (runner_fallback e, 1)
        | .notDict => (runner_fallback "invalid_response", 1)
        | .reply none _ => (runner_fallback "invalid_response", 1)
        | .reply (some _) none => (runner_fallback "invalid_response", 1)
        | .reply (some a) (some amt) => (⟨a, amt, none⟩, 1)

/-- C6.  A decision state whose compact serialization exceeds 64 KiB is
answered with exactly `{action: "fold", amount: 0, error:
"state_too_large"}` and the bot is never invoked (invocation count 0,
independently of the runner mode and of what the bot would have
answered); a state that fails to serialize likewise yields
`{action: "fold", amount: 0, error: "invalid_state"}` without invoking
the bot. -/
theorem runner_act_short_circuits (payload : String) (mode : RunnerMode)
    (outcome : CallOutcome) (hlen : 65536 < payload.length) :
    runner_act (.ok payload) mode outcome = (⟨"fold", 0, some "state_too_large"⟩, 0) ∧
    runner_act .failure mode outcome = (⟨"fold", 0, some "invalid_state"⟩, 0) := by
  constructor
  · show (if MAX_STATE_BYTES < payload.length then (runner_fallback "state_too_large", 0)
      else _) = _
    rw [if_pos (by simpa [MAX_STATE_BYTES] using hlen)]
    rfl
  · rfl

/-- Witness for `runner_act_short_circuits` on a concrete 65537-character
payload. -/
theorem runner_act_short_circuits_witness :
    runner_act (.ok (String.mk (List.replicate 65537 'a')))
      RunnerMode.inProcess (.reply (some "check") (some 0)) =
      (⟨"fold", 0, some "state_too_large"⟩, 0) :=
  (runner_act_short_circuits (String.mk (List.replicate 65537 'a'))
    RunnerMode.inProcess (.reply (some "check") (some 0))
    (by
      show 65536 < (List.replicate 65537 'a').length
      rw [List.length_replicate]
      decide)).1

/-! ## `select_bot_member` (`validator.py`)

Python splits member names with `str.split`; we implement the same split
by structural recursion over the character list so that the definitions
evaluate inside the kernel. -/

/-- Splitting a character list at a separator character, as Python
`str.split(sep)` does (adjacent separators produce empty pieces). -/
def split_char (sep : Char) : List Char → List Char → List (List Char)
  | [], acc => [acc.reverse]
  | c :: rest, acc =>
    if c = sep then acc.reverse :: split_char sep rest []
    else split_char sep rest (c :: acc)

/-- `[p for p in name.split("/") if p]` from `select_bot_member`. -/
def slash_parts (name : String) : List String :=
  ((split_char '/' name.toList []).map (fun l => String.mk l)).filter (fun p => p ≠ "")

/-- Python `name.endswith("/")`. -/
def ends_with_slash (name : String) : Bool :=
  name.toList.getLast? = some '/'

/-- The candidate collection loop of `select_bot_member`: non-directory
member names whose last path component is `bot.py`. -/
def bot_candidates (names : List String) : List String :=
  names.filter (fun n =>
    ¬ ends_with_slash n = true ∧ (slash_parts n).getLast? = some "bot.py")

/-- `select_bot_member` from `validator.py`: returns
`(member?, error?)`. -/
def select_bot_member (names : List String) : Option String × Option String :=
  let candidates := bot_candidates names
  if candidates = [] then
    (none, some "bot.py must exist at zip root or one top-level folder")
  else if "bot.py" ∈ candidates then (some "bot.py", none)
  else
    let single := candidates.filter (fun n => (slash_parts n).length = 2)
    if single.length = 1 then (some (single.headD ""), none)
    else if 1 < single.length then
      (none, some "Archive contains multiple bot.py candidates")
    else (none, some "bot.py must exist at zip root or one top-level folder")

/-- C7 counterexample.  An archive holding both a root `bot.py` and
`pkg/bot.py` has two candidate files named `bot.py`, yet
`select_bot_member` accepts it and returns the root entry instead of
rejecting the archive. -/
theorem select_bot_member_root_priority_cex :
    bot_candidates ["bot.py", "pkg/bot.py"] = ["bot.py", "pkg/bot.py"] ∧
    select_bot_member ["bot.py", "pkg/bot.py"] = (some "bot.py", none) := by
  constructor
  · rfl
  · rfl

/-- C7 (amended).  `select_bot_member` selects a root `bot.py` whenever
one exists, even if further `bot.py` candidates exist elsewhere in the
archive; when no root `bot.py` exists it selects the sole candidate
lying exactly one directory level deep, and rejects the archive
(with the multiple-candidates error) only when no root `bot.py` exists
and more than one one-level-deep candidate exists; with no candidate at
all (or only deeper-nested ones) it reports that `bot.py` is missing. -/
theorem select_bot_member_spec (names : List String) :
    ("bot.py" ∈ bot_candidates names →
      select_bot_member names = (some "bot.py", none)) ∧
    ("bot.py" ∉ bot_candidates names →
      1 < ((bot_candidates names).filter (fun n => (slash_parts n).length = 2)).length →
      select_bot_member names =
        (none, some "Archive contains multiple bot.py candidates")) ∧
    ("bot.py" ∉ bot_candidates names →
      ((bot_candidates names).filter (fun n => (slash_parts n).length = 2)).length = 1 →
      ∃ m, select_bot_member names = (some m, none) ∧
        m ∈ bot_candidates names ∧ (slash_parts m).length = 2) ∧
    (bot_candidates names = [] →
      select_bot_member names =
        (none, some "bot.py must exist at zip root or one top-level folder")) := by
  refine ⟨?_, ?_, ?_, ?_⟩
  · intro hmem
    unfold select_bot_member
    rw [if_neg (by intro h; rw [h] at hmem; cases hmem), if_pos hmem]
  · intro hmem hlen
    unfold select_bot_member
    have hne : bot_candidates names ≠ [] := by
      intro h; rw [h] at hlen; simp at hlen
    rw [if_neg hne, if_neg hmem, if_neg (by omega), if_pos hlen]
  · intro hmem hlen
    unfold select_bot_member
    have hne : bot_candidates names ≠ [] := by
      intro h; rw [h] at hlen; simp at hlen
    rw [if_neg hne, if_neg hmem, if_pos hlen]
    refine ⟨_, rfl, ?_, ?_⟩
    · have hhead : ((bot_candidates names).filter
          (fun n => (slash_parts n).length = 2)).headD "" ∈
          (bot_candidates names).filter (fun n => (slash_parts n).length = 2) := by
        cases hf : (bot_candidates names).filter (fun n => (slash_parts n).length = 2) with
        | nil => rw [hf] at hlen; simp at hlen
        | cons x xs => simp [hf]
      exact (List.mem_filter.mp hhead).1
    · have hhead : ((bot_candidates names).filter
          (fun n => (slash_parts n).length = 2)).headD "" ∈
          (bot_candidates names).filter (fun n => (slash_parts n).length = 2) := by
        cases hf : (bot_candidates names).filter (fun n => (slash_parts n).length = 2) with
        | nil => rw [hf] at hlen; simp at hlen
        | cons x xs => simp [hf]
      have := (List.mem_filter.mp hhead).2
      exact of_decide_eq_true this
  · intro hnil
    unfold select_bot_member
    rw [if_pos hnil]

/-- Witness for `select_bot_member_spec`: a single one-level-deep
candidate with no root `bot.py` is selected. -/
theorem select_bot_member_spec_witness :
    select_bot_member ["pkg/bot.py", "pkg/util.py"] = (some "pkg/bot.py", none) := by
  have h := (select_bot_member_spec ["pkg/bot.py", "pkg/util.py"]).2.2.1
    (by decide) (by decide)
  rcases h with ⟨m, he, hm, hl⟩
  have : m = "pkg/bot.py" := by
    have : bot_candidates ["pkg/bot.py", "pkg/util.py"] = ["pkg/bot.py"] := by rfl
    rw [this] at hm
    simpa using hm
  rw [this] at he
  exact he

/-! ## Declared protocol extraction (`protocol.py`) and
`validate_bot_archive` (`validator.py`)

An uploaded `bot.py` is modelled at the granularity the validator reads
it: whether it decodes and parses, the `BOT_PROTOCOL_VERSION`
assignments of its module body, and the `protocol_version` assignments
of each top-level `PokerBot` class body.  Each assignment is modelled by
the result of `_literal_string` on its right-hand side: `some v` for a
successful non-empty string literal (already `strip`-normalized), `none`
when `_literal_string` reports an error. -/

def SUPPORTED_DECLARED_PROTOCOLS : List String := ["2.0"]

/-- The assignment-scanning loop shared by `_extract_module_protocol`
and `_extract_class_protocol`: later assignments overwrite earlier ones,
a failing `_literal_string` aborts with the given error message. -/
def scan_protocol_assigns (errMsg : String) :
    List (Option String) → Option String → Option String × Option String
  | [], acc => (acc, none)
  | none :: _, _ => (none, some errMsg)
  | some v :: rest, _ => scan_protocol_assigns errMsg rest (some v)

/-- `_extract_module_protocol` from `protocol.py`. -/
def extract_module_protocol (moduleAssigns : List (Option String)) :
    Option String × Option String :=
  scan_protocol_assigns "BOT_PROTOCOL_VERSION must be a string literal"
    moduleAssigns none

/-- `_extract_class_protocol` from `protocol.py`: only the first
top-level class named `PokerBot` is consulted. -/
def extract_class_protocol (classes : List (List (Option String))) :
    Option String × Option String :=
  match classes with
  | [] => (none, none)
  | c :: _ =>
    scan_protocol_assigns "PokerBot.protocol_version must be a string literal" c none

/-- `resolve_declared_protocol` from `protocol.py`: module-level wins. -/
def resolve_declared_protocol (moduleP classP : Option String) : Option String :=
  match moduleP with
  | some v => some v
  | none => classP

/-- The statically visible content of a parsed `bot.py` module. -/
structure BotModuleAst where
  moduleAssigns : List (Option String)
  pokerBotClasses : List (List (Option String))
deriving DecidableEq

/-- `extract_declared_protocol_from_ast` from `protocol.py`: returns
`(module_protocol, class_protocol, error)`.  The unsupported-version
error message is abbreviated to its fixed prefix. -/
def extract_declared_protocol_from_ast (tree : BotModuleAst) :
    Option String × Option String × Option String :=
  match extract_module_protocol tree.moduleAssigns with
  | (_, some e) => (none, none, some e)
  | (moduleP, none) =>
    match extract_class_protocol tree.pokerBotClasses with
    | (_, some e) => (none, none, some e)
    | (classP, none) =>
      match resolve_declared_protocol moduleP classP with
      | none => (moduleP, classP, none)
      | some declared =>
        if declared ∈ SUPPORTED_DECLARED_PROTOCOLS then (moduleP, classP, none)
        else (moduleP, classP, some "Unsupported protocol version")

/-- One `ZipInfo` of the uploaded archive. -/
structure ZipEntryM where
  name : String
  isDir : Bool
  fileSize : Nat
  isSymlink : Bool
deriving DecidableEq

/-- What reading one member of the archive as the bot source yields. -/
structure BotSourceM where
  utf8Ok : Bool
  parsed : Option BotModuleAst
deriving DecidableEq

/-- The uploaded archive as the validator observes it. -/
structure ZipArchiveM where
  zipOk : Bool
  entries : List ZipEntryM
  source : String → BotSourceM

def MAX_ARCHIVE_MEMBERS : Nat := 128
def MAX_ARCHIVE_FILE_BYTES : Nat := 1024 * 1024
def MAX_ARCHIVE_UNCOMPRESSED_BYTES : Nat := 2 * 1024 * 1024
def MAX_BOT_SOURCE_BYTES : Nat := 256 * 1024

/-- `normalize_archive_member` from `security.py`.  `PurePosixPath`
collapses empty and single-dot components, so the modelled parts list
filters them out before the unsafe-component test. -/
def normalize_archive_member (filename : String) : Option (List String) × Option String :=
  if filename = "" then (none, some "Archive contains an empty entry name")
  else if filename.toList.head? = some '/' then
    (none, some "Archive contains absolute paths")
  else if '\\' ∈ filename.toList then
    (none, some "Archive contains unsupported path separators")
  else
    let parts := ((split_char '/' filename.toList []).map (fun l => String.mk l)).filter
      (fun p => p ≠ "" ∧ p ≠ ".")
    if parts.any (fun p => p = "" ∨ p = "." ∨ p = "..") then
      (none, some "Archive contains unsafe paths")
    else (some parts, none)

/-- The member loop of `validate_archive_infos` from `security.py`. -/
def validate_infos_loop :
    List ZipEntryM → List (List String) → Nat → Bool × Option String
  | [], _, _ => (true, none)
  | e :: rest, seen, total =>
    match normalize_archive_member e.name with
    | (_, some err) => (false, some err)
    | (none, none) => (false, none)
    | (some parts, none) =>
      if parts ∈ seen then (false, some "Archive contains duplicate entry")
      else if e.isSymlink then (false, some "Archive symlinks are not allowed")
      else if e.isDir then validate_infos_loop rest (parts :: seen) total
      else if MAX_ARCHIVE_FILE_BYTES < e.fileSize then
        (false, some "Archive file exceeds 1048576 byte limit")
      else if MAX_ARCHIVE_UNCOMPRESSED_BYTES < total + e.fileSize then
        (false, some "Archive uncompressed size exceeds 2097152 byte limit")
      else validate_infos_loop rest (parts :: seen) (total + e.fileSize)

/-- `validate_archive_infos` from `security.py`. -/
def validate_archive_infos (entries : List ZipEntryM) : Bool × Option String :=
  if MAX_ARCHIVE_MEMBERS < entries.length then
    (false, some "Archive contains too many files (max 128)")
  else validate_infos_loop entries [] 0

/-- `validate_bot_archive` from `validator.py` as shipped under `src/`:
note that it never consults `extract_declared_protocol_from_ast`. -/
def validate_bot_archive (payloadEmpty : Bool) (arch : ZipArchiveM) :
    Bool × Option String :=
  if payloadEmpty then (false, some "Upload payload is empty")
  else if ¬ arch.zipOk then (false, some "Upload is not a valid zip archive")
  else
    match validate_archive_infos arch.entries with
    | (false, err) => (false, err)
    | (true, _) =>
      match select_bot_member (arch.entries.map (fun e => e.name)) with
      | (none, selErr) =>
        (false, some (selErr.getD "bot.py was not found in the zip"))
      | (some member, _) =>
        match arch.entries.find? (fun e => e.name = member) with
        | none => (false, some "bot.py was not found in the zip")
        | some info =>
          if MAX_BOT_SOURCE_BYTES < info.fileSize then
            (false, some "bot.py exceeds 262144 byte limit")
          else
            let src := arch.source member
            if ¬ src.utf8Ok = true then (false, some "bot.py must be valid UTF-8 text")
            else
              match src.parsed with
              | none => (false, some "bot.py contains invalid Python syntax")
              | some tree =>
                if tree.pokerBotClasses = [] then
                  (false, some "bot.py must define a PokerBot class")
                else (true, none)

/-- The failing input for C8: a well-formed single-file archive whose
`bot.py` declares `BOT_PROTOCOL_VERSION = "9.9"` and defines a
`PokerBot` class without a class-level `protocol_version`. -/
def archive_with_protocol_9_9 : ZipArchiveM :=
  { zipOk := true
    entries := [⟨"bot.py", false, 100, false⟩]
    source := fun _ => ⟨true, some ⟨[some "9.9"], [[]]⟩⟩ }

/-- C8 evidence.  The statically declared protocol of that archive is
`"9.9"`, which `extract_declared_protocol_from_ast` rejects as
unsupported, yet `validate_bot_archive` as shipped accepts the archive
with `(is_valid, error) = (True, None)`: the validator never invokes the
protocol check.  The repository test
`test_validate_bot_archive_rejects_unsupported_protocol_version`
expects `(False, "Unsupported protocol version ...")` on exactly this
archive, so the code contradicts its own test suite (and the spec). -/
theorem validate_bot_archive_ignores_declared_protocol :
    extract_declared_protocol_from_ast ⟨[some "9.9"], [[]]⟩ =
      (some "9.9", none, some "Unsupported protocol version") ∧
    validate_bot_archive false archive_with_protocol_9_9 = (true, none) := by
  constructor
  · rfl
  · rfl

/-! ## `MatchService` lifecycle commands (`match_service.py`)

The thread and stop-event plumbing is not modelled; the lifecycle
commands are embedded as pure transformers of the observable service
state.  Each Python method performs all its validity checks before its
first mutation, so a raised transition error leaves the object
untouched; the embedding returns `(error?, new_state)` with the old
state on error. -/

inductive MatchStatus where
  | waiting
  | running
  | paused
  | stopped
deriving DecidableEq, Repr

/-- Seat identifiers `"1"`..`"6"`, as numbers. -/
def SEAT_ORDER_IDS : List Nat := [1, 2, 3, 4, 5, 6]

/-- The lifecycle-relevant state of a `MatchService`: status, start
timestamp, the append-only hand list (opaque records), per-seat
readiness and per-seat loaded bot. -/
structure MatchControl where
  status : MatchStatus
  startedAt : Option Int
  hands : List Int
  seatReady : Nat → Bool
  botLoaded : Nat → Bool

/-- `_ready_seats_locked`: seats marked ready whose `BotRunner` is
loaded. -/
def ready_seats (m : MatchControl) : List Nat :=
  SEAT_ORDER_IDS.filter (fun s => m.seatReady s && m.botLoaded s)

/-- `start_match`.  `now` models `datetime.now(timezone.utc)`. -/
def start_match (now : Int) (m : MatchControl) : Option String × MatchControl :=
  if m.status = .running then (some "Match already running", m)
  else if m.status = .paused then (some "Match is paused; use resume", m)
  else if (ready_seats m).length < 2 then
    (some "At least two seats must be ready to start", m)
  else
    (none,
      { m with
        status := .running
        startedAt :=
          if m.status = .waiting ∨ m.status = .stopped ∨ m.startedAt = none
          then some now else m.startedAt })

/-- `pause_match`. -/
def pause_match (m : MatchControl) : Option String × MatchControl :=
  if ¬ m.status = .running then (some "Match is not running", m)
  else (none, { m with status := .paused })

/-- `resume_match`. -/
def resume_match (now : Int) (m : MatchControl) : Option String × MatchControl :=
  if ¬ m.status = .paused then (some "Match is not paused", m)
  else if (ready_seats m).length < 2 then
    (some "At least two seats must be ready to resume", m)
  else
    (none,
      { m with
        status := .running
        startedAt := if m.startedAt = none then some now else m.startedAt })

/-- `end_match`. -/
def end_match (m : MatchControl) : Option String × MatchControl :=
  if ¬ (m.status = .running ∨ m.status = .paused) then
    (some "Match is not running", m)
  else (none, { m with status := .stopped })

/-- C9.  The lifecycle commands follow the transition table: `start`
succeeds exactly from `waiting` or `stopped` with at least two ready
seats holding a loaded bot, `pause` exactly from `running`, `resume`
exactly from `paused` with at least two ready seats, `end` exactly from
`running` or `paused`; every other `(command, status)` pair reports an
error and leaves the whole service state (status, `started_at` and the
hand list included) unchanged. -/
theorem lifecycle_transition_table (m : MatchControl) (now : Int) :
    ((start_match now m).1 = none ↔
      (m.status = .waiting ∨ m.status = .stopped) ∧ 2 ≤ (ready_seats m).length) ∧
    ((start_match now m).1 ≠ none → (start_match now m).2 = m) ∧
    ((start_match now m).1 = none → (start_match now m).2.status = .running) ∧
    ((pause_match m).1 = none ↔ m.status = .running) ∧
    ((pause_match m).1 ≠ none → (pause_match m).2 = m) ∧
    ((pause_match m).1 = none → (pause_match m).2.status = .paused) ∧
    ((resume_match now m).1 = none ↔
      m.status = .paused ∧ 2 ≤ (ready_seats m).length) ∧
    ((resume_match now m).1 ≠ none → (resume_match now m).2 = m) ∧
    ((resume_match now m).1 = none → (resume_match now m).2.status = .running) ∧
    ((end_match m).1 = none ↔ (m.status = .running ∨ m.status = .paused)) ∧
    ((end_match m).1 ≠ none → (end_match m).2 = m) ∧
    ((end_match m).1 = none → (end_match m).2.status = .stopped) := by
  rcases m with ⟨st, sa, hs, sr, bl⟩
  cases st <;>
    simp only [start_match, pause_match, resume_match, end_match, ready_seats] <;>
    by_cases hr : (SEAT_ORDER_IDS.filter (fun s => sr s && bl s)).length < 2 <;>
    simp [hr] <;> omega

/-- Witness for `lifecycle_transition_table`: starting a waiting match
with six ready seats succeeds. -/
theorem lifecycle_transition_table_witness :
    (start_match 0 ⟨.waiting, none, [], fun _ => true, fun _ => true⟩).1 = none :=
  (lifecycle_transition_table ⟨.waiting, none, [], fun _ => true, fun _ => true⟩ 0).1.mpr
    ⟨Or.inl rfl, by decide⟩

/-! ## The five-card hand evaluator (`game.py`) -/

/-- A playing card: rank 2..14, suit encoded 0..3 for `s h d c`. -/
structure CardE where
  rank : Nat
  suit : Nat
deriving DecidableEq, Repr

/-- Descending order on ranks, as `sorted(..., reverse=True)`. -/
def rge (a b : Nat) : Prop := b ≤ a

instance : DecidableRel rge := fun a b => Nat.decLe b a

instance : IsTotal Nat rge := ⟨fun a b => (Nat.le_total b a).imp id id⟩

instance : IsTrans Nat rge := ⟨fun _ _ _ h1 h2 => Nat.le_trans h2 h1⟩

instance : IsAntisymm Nat rge := ⟨fun _ _ h1 h2 => Nat.le_antisymm h2 h1⟩

def sort_desc (l : List Nat) : List Nat := l.insertionSort rge

def card_ranks (cards : List CardE) : List Nat := cards.map (fun c => c.rank)

/-- `ranks = sorted((card.rank for card in cards), reverse=True)`. -/
def ranks_desc (cards : List CardE) : List Nat := sort_desc (card_ranks cards)

/-- `flush = len(set(suits)) == 1`. -/
def hand_flush (cards : List CardE) : Prop :=
  ((cards.map (fun c => c.suit)).dedup).length = 1

instance (cards : List CardE) : Decidable (hand_flush cards) := by
  unfold hand_flush
  infer_instance

/-- `unique_ranks = sorted(set(ranks), reverse=True)`. -/
def five_unique (cards : List CardE) : List Nat :=
  sort_desc ((ranks_desc cards).dedup)

/-- The straight-detection block of `evaluate_five_card_hand`, returning
`(straight, straight_high)`. -/
def straight_info (unique : List Nat) : Bool × Nat :=
  if unique.length = 5 then
    if unique.headD 0 - unique.getLastD 0 = 4 then (true, unique.headD 0)
    else if unique = [14, 5, 4, 3, 2] then (true, 5)
    else (false, 0)
  else (false, 0)

/-- The rank-count dict `counts` as an association list in key-insertion
order. -/
def count_items (cards : List CardE) : List (Nat × Nat) :=
  ((ranks_desc cards).dedup).map (fun r => (r, (ranks_desc cards).count r))

/-- The comparator of `count_sorted`: descending lexicographic on
`(count, rank)`; the keys of distinct items are distinct, so stability
is irrelevant. -/
def count_key_ge (a b : Nat × Nat) : Prop :=
  b.2 < a.2 ∨ (b.2 = a.2 ∧ b.1 ≤ a.1)

instance : DecidableRel count_key_ge := fun a b => by
  unfold count_key_ge
  infer_instance

/-- `count_sorted = sorted(counts.items(), key=(count, rank), reverse)`. -/
def hand_count_sorted (cards : List CardE) : List (Nat × Nat) :=
  (count_items cards).insertionSort count_key_ge

def hand_count_values (cards : List CardE) : List Nat :=
  (hand_count_sorted cards).map (fun p => p.2)

def hand_ordered_ranks (cards : List CardE) : List Nat :=
  (hand_count_sorted cards).map (fun p => p.1)

/-- `kickers`-style helper: ranks whose count equals `k`, descending. -/
def ranks_with_count (cards : List CardE) (k : Nat) : List Nat :=
  sort_desc (((count_items cards).filter (fun p => p.2 = k)).map (fun p => p.1))

/-- `evaluate_five_card_hand` from `game.py`. -/
def evaluate_five_card_hand (cards : List CardE) : Nat × List Nat :=
  let ranks := ranks_desc cards
  let straight := (straight_info (five_unique cards)).1
  let straight_high := (straight_info (five_unique cards)).2
  let count_values := hand_count_values cards
  let ordered_ranks := hand_ordered_ranks cards
  if straight = true ∧ hand_flush cards then (8, [straight_high])
  else if count_values = [4, 1] then
    (7, [ordered_ranks.getD 0 0, ordered_ranks.getD 1 0])
  else if count_values = [3, 2] then
    (6, [ordered_ranks.getD 0 0, ordered_ranks.getD 1 0])
  else if hand_flush cards then (5, ranks)
  else if straight = true then (4, [straight_high])
  else if count_values = [3, 1, 1] then
    (3, ordered_ranks.getD 0 0 :: ranks_with_count cards 1)
  else if count_values = [2, 2, 1] then
    (2, ranks_with_count cards 2 ++
      [(((count_items cards).filter (fun p => p.2 = 1)).map (fun p => p.1)).getD 0 0])
  else if count_values = [2, 1, 1, 1] then
    (1, ordered_ranks.getD 0 0 :: ranks_with_count cards 1)
  else (0, ranks)

/-- `evaluate_best_hand` from `game.py`: the maximum of
`evaluate_five_card_hand` over all 5-card subsets, under Python tuple
comparison.  Only used as an opaque ranking by the payout logic. -/
def rank_lt (a b : Nat × List Nat) : Bool :=
  a.1 < b.1 || (a.1 = b.1 && decide (List.Lex (· < ·) a.2 b.2))

def evaluate_best_hand (cards : List CardE) : Nat × List Nat :=
  ((cards.sublistsLen 5).map evaluate_five_card_hand).foldl
    (fun best r => if rank_lt best r then r else best) (0, [])

/-- The spec notion of a straight: the five ranks are some
`high, high-1, ..., high-4` (with `high ≥ 6`, so the low end is ≥ 2), or
the wheel `A-2-3-4-5`. -/
def is_straight_hand (cards : List CardE) : Prop :=
  (∃ high, 6 ≤ high ∧
    (card_ranks cards).Perm [high, high - 1, high - 2, high - 3, high - 4]) ∨
  (card_ranks cards).Perm [14, 5, 4, 3, 2]

/-- The spec notion of a flush: all five cards share one suit. -/
def is_flush_hand (cards : List CardE) : Prop :=
  ∃ su, ∀ c ∈ cards, c.suit = su

/-- The wheel `A-2-3-4-5`. -/
def is_wheel_hand (cards : List CardE) : Prop :=
  (card_ranks cards).Perm [14, 5, 4, 3, 2]

theorem sort_desc_eq_of_perm (l m : List Nat) (hp : l.Perm m)
    (hm : m.Sorted rge) : sort_desc l = m :=
  List.eq_of_perm_of_sorted ((List.perm_insertionSort rge l).trans hp)
    (List.sorted_insertionSort rge l) hm

theorem sort_desc_perm (l : List Nat) : (sort_desc l).Perm l :=
  List.perm_insertionSort rge l

theorem five_unique_of_perm (cards : List CardE) (m : List Nat) (hnd : m.Nodup)
    (hsort : m.Sorted rge) (hp : (card_ranks cards).Perm m) :
    five_unique cards = m := by
  have h1 : (ranks_desc cards).Perm m := (sort_desc_perm _).trans hp
  have h2 : (ranks_desc cards).Nodup := h1.nodup_iff.mpr hnd
  show sort_desc ((ranks_desc cards).dedup) = m
  rw [List.dedup_eq_self.mpr h2]
  exact sort_desc_eq_of_perm _ _ h1 hsort

theorem count_values_length (cards : List CardE)
    (hnd : (card_ranks cards).Nodup) :
    (hand_count_values cards).length = cards.length := by
  unfold hand_count_values hand_count_sorted count_items
  rw [List.length_map, List.length_insertionSort, List.length_map]
  have h2 : (ranks_desc cards).Nodup := ((sort_desc_perm _).nodup_iff).mpr hnd
  rw [List.dedup_eq_self.mpr h2]
  show (sort_desc (card_ranks cards)).length = _
  rw [(sort_desc_perm _).length_eq]
  unfold card_ranks
  rw [List.length_map]

theorem straight_list_nodup (high : Nat) (hh : 6 ≤ high) :
    ([high, high - 1, high - 2, high - 3, high - 4] : List Nat).Nodup := by
  refine List.nodup_cons.mpr ⟨?_, List.nodup_cons.mpr ⟨?_, List.nodup_cons.mpr
    ⟨?_, List.nodup_cons.mpr ⟨?_, List.nodup_singleton _⟩⟩⟩⟩ <;>
    simp only [List.mem_cons, List.mem_singleton, List.not_mem_nil, or_false] <;>
    omega

theorem straight_list_sorted (high : Nat) (hh : 6 ≤ high) :
    ([high, high - 1, high - 2, high - 3, high - 4] : List Nat).Sorted rge := by
  refine List.Pairwise.cons ?_ (List.Pairwise.cons ?_ (List.Pairwise.cons ?_
    (List.Pairwise.cons ?_ (List.pairwise_singleton rge (high - 4))))) <;>
    intro b hb <;>
    simp only [List.mem_cons, List.mem_singleton, List.not_mem_nil, or_false] at hb <;>
    unfold rge <;>
    omega

theorem straight_ranks_nodup (cards : List CardE) (hs : is_straight_hand cards) :
    (card_ranks cards).Nodup := by
  rcases hs with ⟨high, hh, hp⟩ | hp
  · exact hp.nodup_iff.mpr (straight_list_nodup high hh)
  · exact hp.nodup_iff.mpr (by decide)

theorem straight_flag_of_straight (cards : List CardE)
    (hs : is_straight_hand cards) :
    ∃ sh, straight_info (five_unique cards) = (true, sh) := by
  rcases hs with ⟨high, hh, hp⟩ | hp
  · have hu : five_unique cards = [high, high - 1, high - 2, high - 3, high - 4] :=
      five_unique_of_perm cards _ (straight_list_nodup high hh)
        (straight_list_sorted high hh) hp
    refine ⟨high, ?_⟩
    rw [hu]
    unfold straight_info
    rw [if_pos (by simp), if_pos ?_]
    · simp
    · show high - (high - 4) = 4
      omega
  · have hu : five_unique cards = [14, 5, 4, 3, 2] :=
      five_unique_of_perm cards _ (by decide) (by decide) hp
    refine ⟨5, ?_⟩
    rw [hu]
    rfl

theorem straight_flag_of_wheel (cards : List CardE) (hw : is_wheel_hand cards) :
    straight_info (five_unique cards) = (true, 5) := by
  have hu : five_unique cards = [14, 5, 4, 3, 2] :=
    five_unique_of_perm cards _ (by decide) (by decide) hw
  rw [hu]
  rfl

theorem dedup_all_eq {l : List Nat} {su : Nat} (hne : l ≠ [])
    (hall : ∀ x ∈ l, x = su) : l.dedup = [su] := by
  induction l with
  | nil => cases hne rfl
  | cons a t ih =>
    have ha : a = su := hall a (List.mem_cons_self a t)
    cases t with
    | nil => simp [ha]
    | cons b t2 =>
      have hb : b = su := hall b (by simp)
      have hmem : a ∈ b :: t2 := by
        rw [ha, hb]
        exact List.mem_cons_self _ _
      rw [List.dedup_cons_of_mem hmem]
      exact ih (by simp) (fun x hx => hall x (List.mem_cons_of_mem a hx))

theorem hand_flush_of_flush (cards : List CardE) (h5 : cards.length = 5)
    (hf : is_flush_hand cards) : hand_flush cards := by
  rcases hf with ⟨su, hsu⟩
  have hne : cards.map (fun c => c.suit) ≠ [] := by
    intro h
    have := congrArg List.length h
    rw [List.length_map, h5] at this
    simp at this
  have hall : ∀ x ∈ cards.map (fun c => c.suit), x = su := by
    intro x hx
    rcases List.mem_map.mp hx with ⟨c, hc, rfl⟩
    exact hsu c hc
  unfold hand_flush
  rw [dedup_all_eq hne hall]
  rfl

theorem flush_of_hand_flush (cards : List CardE) (hf : hand_flush cards) :
    is_flush_hand cards := by
  unfold hand_flush at hf
  rcases List.length_eq_one.mp hf with ⟨su, hsu⟩
  refine ⟨su, fun c hc => ?_⟩
  have : c.suit ∈ (cards.map (fun c => c.suit)).dedup :=
    List.mem_dedup.mpr (List.mem_map.mpr ⟨c, hc, rfl⟩)
  rw [hsu] at this
  simpa using this

theorem flush_ranks_nodup (cards : List CardE) (hnd : cards.Nodup)
    (hf : is_flush_hand cards) : (card_ranks cards).Nodup := by
  rcases hf with ⟨su, hsu⟩
  refine List.Nodup.map_on ?_ hnd
  intro x hx y hy hxy
  have h1 := hsu x hx
  have h2 := hsu y hy
  cases x
  cases y
  simp only at hxy h1 h2
  subst hxy
  subst h1
  subst h2
  rfl

theorem eval_of_straight (cards : List CardE) (h5 : cards.length = 5)
    (hs : is_straight_hand cards) :
    ∃ sh, straight_info (five_unique cards) = (true, sh) ∧
      (hand_flush cards → evaluate_five_card_hand cards = (8, [sh])) ∧
      (¬ hand_flush cards → evaluate_five_card_hand cards = (4, [sh])) := by
  obtain ⟨sh, hflag⟩ := straight_flag_of_straight cards hs
  have hnd := straight_ranks_nodup cards hs
  have hlen : (hand_count_values cards).length = 5 := by
    rw [count_values_length cards hnd, h5]
  refine ⟨sh, hflag, ?_, ?_⟩
  · intro hf
    unfold evaluate_five_card_hand
    simp only [hflag]
    rw [if_pos ⟨trivial, hf⟩]
  · intro hf
    unfold evaluate_five_card_hand
    simp only [hflag]
    rw [if_neg (by intro h; exact hf h.2)]
    rw [if_neg (by intro h; rw [h] at hlen; simp at hlen)]
    rw [if_neg (by intro h; rw [h] at hlen; simp at hlen)]
    rw [if_neg hf]
    rw [if_pos trivial]

theorem eval_of_flush (cards : List CardE) (h5 : cards.length = 5)
    (hnd : cards.Nodup) (hf : is_flush_hand cards) :
    (evaluate_five_card_hand cards).1 = 8 ∨ (evaluate_five_card_hand cards).1 = 5 := by
  have hff : hand_flush cards := hand_flush_of_flush cards h5 hf
  have hndr := flush_ranks_nodup cards hnd hf
  have hlen : (hand_count_values cards).length = 5 := by
    rw [count_values_length cards hndr, h5]
  unfold evaluate_five_card_hand
  by_cases hstraight :
      (straight_info (five_unique cards)).1 = true ∧ hand_flush cards
  · rw [if_pos hstraight]
    exact Or.inl rfl
  · rw [if_neg hstraight]
    rw [if_neg (by intro h; rw [h] at hlen; simp at hlen)]
    rw [if_neg (by intro h; rw [h] at hlen; simp at hlen)]
    rw [if_pos hff]
    exact Or.inr rfl

/-- C5.  For every 5-card hand (distinct cards, ranks 2..14, suits among
the four suits): a straight evaluates to category ≥ 4, a flush to
category ≥ 5, a straight flush to exactly category 8, and the wheel
`A-2-3-4-5` records straight high 5 (not 14) in its tiebreak vector. -/
theorem evaluate_five_card_hand_spec (cards : List CardE)
    (h5 : cards.length = 5) (hnd : cards.Nodup)
    (hranks : ∀ c ∈ cards, 2 ≤ c.rank ∧ c.rank ≤ 14)
    (hsuits : ∀ c ∈ cards, c.suit < 4) :
    (is_straight_hand cards → 4 ≤ (evaluate_five_card_hand cards).1) ∧
    (is_flush_hand cards → 5 ≤ (evaluate_five_card_hand cards).1) ∧
    (is_straight_hand cards → is_flush_hand cards →
      (evaluate_five_card_hand cards).1 = 8) ∧
    (is_wheel_hand cards → (evaluate_five_card_hand cards).2 = [5]) := by
  refine ⟨?_, ?_, ?_, ?_⟩
  · intro hs
    obtain ⟨sh, hflag, h8, h4⟩ := eval_of_straight cards h5 hs
    by_cases hf : hand_flush cards
    · rw [h8 hf]
      try simp
    · rw [h4 hf]
      try simp
  · intro hf
    rcases eval_of_flush cards h5 hnd hf with h | h <;> omega
  · intro hs hf
    obtain ⟨sh, hflag, h8, h4⟩ := eval_of_straight cards h5 hs
    rw [h8 (hand_flush_of_flush cards h5 hf)]
  · intro hw
    obtain ⟨sh, hflag, h8, h4⟩ := eval_of_straight cards h5 (Or.inr hw)
    have hsh : sh = 5 := by
      have := straight_flag_of_wheel cards hw
      rw [hflag] at this
      exact (Prod.mk.injEq _ _ _ _ ▸ this).2
    subst hsh
    by_cases hf : hand_flush cards
    · rw [h8 hf]
    · rw [h4 hf]

/-- Witness for `evaluate_five_card_hand_spec`: the five-high straight
flush `5s 4s 3s 2s As` evaluates to `(8, [5])`. -/
theorem evaluate_five_card_hand_spec_witness :
    (evaluate_five_card_hand
      [⟨14, 0⟩, ⟨5, 0⟩, ⟨4, 0⟩, ⟨3, 0⟩, ⟨2, 0⟩]).1 = 8 :=
  (evaluate_five_card_hand_spec [⟨14, 0⟩, ⟨5, 0⟩, ⟨4, 0⟩, ⟨3, 0⟩, ⟨2, 0⟩]
    (by decide) (by decide) (by decide) (by decide)).2.2.1
    (Or.inr (by decide)) ⟨0, by decide⟩

/-! ## The betting round and `play_hand` (`game.py`)

The hand state is carried in `RoundState`.  Seats are the numeric seat
ids; `order` is the sorted list of active seats and never changes within
a hand.  Bot behaviour is an oracle `acts : Nat → RawAction` giving the
raw response to the n-th decision request of the hand: any sequence of
responses a (possibly stateful) bot could produce corresponds to one
such oracle, so properties proved for every oracle cover every bot.
The append-only `ActionEvent` log does not influence the hand outcome
and is not modelled. -/

structure RoundState where
  stackOf : Nat → Int
  bets : Nat → Int
  contribs : Nat → Int
  pot : Int
  currentBet : Int
  minRaise : Int
  folded : Finset Nat
  pending : Finset Nat
  calls : Nat

/-- The seats that have not folded, in seating order (the recurrent
`{seat for seat in order if seat not in folded}` sets, listed). -/
def live_seats (order : List Nat) (folded : Finset Nat) : List Nat :=
  order.filter (fun s => s ∉ folded)

/-- `_next_pending_seat` from `game.py`: scan clockwise from the seat
after `cur` (a missing `cur` gives Python `start_index = -1`, i.e. the
scan starts at the head of `order`). -/
def next_pending_seat (cur : Nat) (order : List Nat) (pending : Finset Nat) :
    Option Nat :=
  if pending = ∅ then none
  else if order.length = 0 then none
  else
    let start := (order.findIdx? (fun s => decide (s = cur))).getD (order.length - 1)
    (List.range order.length).findSome? (fun off =>
      let s := order.getD ((start + off + 1) % order.length) 0
      if s ∈ pending then some s else none)

/-- The seats owing action at the start of a betting round: live seats
with chips behind. -/
def round_pending (order : List Nat) (folded : Finset Nat) (stackOf : Nat → Int) :
    Finset Nat :=
  ((live_seats order folded).filter (fun s => 0 < stackOf s)).toFinset

/-- Applying a (normalized) call of `amount` by `cur`. -/
def apply_call (st : RoundState) (cur : Nat) (amount : Int) : RoundState :=
  let d := min amount (st.stackOf cur)
  { st with
    stackOf := upd st.stackOf cur (st.stackOf cur - d)
    bets := upd st.bets cur (st.bets cur + d)
    contribs := upd st.contribs cur (st.contribs cur + d)
    pot := st.pot + d
    pending := st.pending.erase cur }

/-- Applying a (normalized) bet or raise to the street total `amount` by
`cur`: move the clamped delta, update `current_bet`/`min_raise`, and
reset `pending` to the other live seats with chips behind. -/
def apply_bet_raise (order : List Nat) (st : RoundState) (cur : Nat)
    (amount : Int) : RoundState :=
  let d := min (max (amount - st.bets cur) 0) (st.stackOf cur)
  let stackOf2 := upd st.stackOf cur (st.stackOf cur - d)
  let newBet := st.bets cur + d
  let raiseSize := newBet - st.currentBet
  { st with
    stackOf := stackOf2
    bets := upd st.bets cur newBet
    contribs := upd st.contribs cur (st.contribs cur + d)
    pot := st.pot + d
    currentBet := newBet
    minRaise := if 0 < raiseSize then max raiseSize st.minRaise else st.minRaise
    pending := (((live_seats order st.folded).filter
      (fun t => 0 < stackOf2 t)).toFinset).erase cur }

/-- Outcome of one iteration of the `while` loop of
`_run_betting_round`. -/
inductive StepOut where
  | next (st : RoundState) (seat : Option Nat)
  | winner (st : RoundState) (w : Nat)
  | over (st : RoundState)

/-- The action-application part of one iteration of the `while` loop of
`_run_betting_round` (the acting seat is `cur`, `na` the normalized
action; the state already has the decision counter bumped). -/
def step_apply (order : List Nat) (st : RoundState) (cur : Nat)
    (na : PAct × Int) : StepOut :=
  match na with
  | (.pfold, _) =>
    let folded2 := insert cur st.folded
    let pending2 := st.pending.erase cur
    let st2 := { st with folded := folded2, pending := pending2 }
    if (live_seats order folded2).length = 1 then
      .winner st2 ((live_seats order folded2).headD 0)
    else .next st2 (next_pending_seat cur order pending2)
  | (.pcheck, _) =>
    let st2 := { st with pending := st.pending.erase cur }
    if st2.pending = ∅ then .over st2
    else .next st2 (next_pending_seat cur order st2.pending)
  | (.pcall, amt) =>
    let st2 := apply_call st cur amt
    if st2.pending = ∅ then .over st2
    else .next st2 (next_pending_seat cur order st2.pending)
  | (_, amt) =>
    let st2 := apply_bet_raise order st cur amt
    if st2.pending = ∅ then .over st2
    else .next st2 (next_pending_seat cur order st2.pending)

/-- One iteration of the `while` loop of `_run_betting_round`, acting at
seat `cur`. -/
def step_round (acts : Nat → RawAction) (order : List Nat) (st : RoundState)
    (cur : Nat) : StepOut :=
  if cur ∉ st.pending then .next st (next_pending_seat cur order st.pending)
  else
    step_apply order { st with calls := st.calls + 1 } cur
      (normalize_action (acts st.calls) (st.currentBet - st.bets cur) st.currentBet
        (min_raise_to st.currentBet st.minRaise) (st.stackOf cur) (st.bets cur)
        (legal_actions (st.currentBet - st.bets cur) (st.stackOf cur) st.currentBet))

/-- The `while` loop of `_run_betting_round`, with explicit fuel (the
loop is proved to terminate within a computable bound below).  `none`
means the fuel ran out; `some (st, w)` is loop exit with final state
`st` and `w` the folded winner when one short-circuited the round. -/
def run_round (acts : Nat → RawAction) (order : List Nat) :
    Nat → RoundState → Option Nat → Option (RoundState × Option Nat)
  | 0, _, _ => none
  | fuel + 1, st, seatO =>
    if st.pending = ∅ then some (st, none)
    else
      match seatO with
      | none => some (st, none)
      | some cur =>
        match step_round acts order st cur with
        | .next st2 s2 => run_round acts order fuel st2 s2
        | .winner st2 w => some (st2, some w)
        | .over st2 => some (st2, none)

/-- `_run_betting_round` from `game.py`: build `pending`, pick the
starting seat, and run the loop. -/
def run_betting_round (acts : Nat → RawAction) (order : List Nat) (fuel : Nat)
    (st0 : RoundState) (startSeat : Nat) : Option (RoundState × Option Nat) :=
  let pend := round_pending order st0.folded st0.stackOf
  let st := { st0 with pending := pend }
  if pend = ∅ then some (st, none)
  else
    run_round acts order fuel st
      (if startSeat ∈ pend then some startSeat
       else next_pending_seat startSeat order pend)

/-- `_post_blind` from `game.py` (the returned amount is accumulated
into `pot` directly). -/
def post_blind (st : RoundState) (seat : Nat) (amount : Int) : RoundState :=
  let actual := min amount (st.stackOf seat)
  { st with
    stackOf := upd st.stackOf seat (st.stackOf seat - actual)
    bets := upd st.bets seat (st.bets seat + actual)
    contribs := upd st.contribs seat (st.contribs seat + actual)
    pot := st.pot + actual }

/-- `_blind_positions` from `game.py`: returns
`(small_blind, big_blind, preflop_start, postflop_start)`. -/
def blind_positions (ordered : List Nat) (button : Nat) : Nat × Nat × Nat × Nat :=
  let bi := (ordered.findIdx? (fun s => decide (s = button))).getD 0
  if ordered.length = 2 then
    (button, ordered.getD ((bi + 1) % 2) 0, button, ordered.getD ((bi + 1) % 2) 0)
  else
    let n := ordered.length
    (ordered.getD ((bi + 1) % n) 0, ordered.getD ((bi + 2) % n) 0,
      ordered.getD ((bi + 3) % n) 0, ordered.getD ((bi + 1) % n) 0)

/-- `_no_actionable_seats` from `game.py`. -/
def no_actionable (order : List Nat) (folded : Finset Nat) (stackOf : Nat → Int) :
    Bool :=
  (live_seats order folded).all (fun s => decide (stackOf s ≤ 0))

/-- Python `deck.pop()`: remove and return the last card. -/
def pop_card (deck : List CardE) : Option (CardE × List CardE) :=
  match deck.getLast? with
  | none => none
  | some c => some (c, deck.dropLast)

/-- Deal two hole cards to each seat in order. -/
def deal_hole : List Nat → List CardE → (Nat → List CardE) →
    Option ((Nat → List CardE) × List CardE)
  | [], deck, f => some (f, deck)
  | s :: rest, deck, f =>
    match pop_card deck with
    | none => none
    | some (c1, d1) =>
      match pop_card d1 with
      | none => none
      | some (c2, d2) => deal_hole rest d2 (fun t => if t = s then [c1, c2] else f t)

/-- Deal `n` board cards (`board.extend([deck.pop(), ...])`). -/
def deal_board : Nat → List CardE → List CardE → Option (List CardE × List CardE)
  | 0, board, deck => some (board, deck)
  | n + 1, board, deck =>
    match pop_card deck with
    | none => none
    | some (c, d) => deal_board n (board ++ [c]) d

/-- The loop of `_deal_remaining_board`, on the reversed deck (popping
from the end of the deck is taking from the head of its reversal). -/
def deal_remaining_rev : List CardE → List CardE → List CardE
  | board, [] => board
  | board, c :: rest =>
    if board.length < 5 then deal_remaining_rev (board ++ [c]) rest else board

/-- `_deal_remaining_board` from `game.py` (the deck is discarded
afterwards). -/
def deal_remaining (board deck : List CardE) : List CardE :=
  deal_remaining_rev board deck.reverse

/-- Python `max` over hand-rank tuples: keeps the first maximum.  The
empty case never arises (at least one live seat reaches showdown). -/
def pymax_rank (l : List (Nat × List Nat)) : Nat × List Nat :=
  match l with
  | [] => (0, [])
  | x :: rest => rest.foldl (fun acc r => if rank_lt acc r then r else acc) x

/-- The level loop of `_calculate_payouts`.  `contribKeys` is the key
list of the `contributions` dict (the active seats), `ranksKeys` the key
list of `ranks` (the showdown seats). -/
def calc_payouts_level (contribs : Nat → Int) (contribKeys ranksKeys : List Nat)
    (ranks : Nat → Nat × List Nat) (order : List Nat) :
    List Int → Int → (Nat → Int) → (Nat → Int)
  | [], _, payouts => payouts
  | L :: rest, prev, payouts =>
    if L ≤ prev then
      calc_payouts_level contribs contribKeys ranksKeys ranks order rest prev payouts
    else
      let involved := contribKeys.filter (fun s => L ≤ contribs s)
      if involved = [] then
        calc_payouts_level contribs contribKeys ranksKeys ranks order rest L payouts
      else
        let slice := (L - prev) * involved.length
        let eligible := involved.filter (fun s => s ∈ ranksKeys)
        if eligible = [] then
          calc_payouts_level contribs contribKeys ranksKeys ranks order rest L payouts
        else
          let best := pymax_rank (eligible.map ranks)
          let winners := eligible.filter (fun s => ranks s = best)
          let each := Int.ediv slice winners.length
          let rem := Int.emod slice winners.length
          let p1 := winners.foldl (fun p s => upd p s (p s + each)) payouts
          let winnersOrdered := winners.insertionSort (fun a b =>
            order.findIdx (fun x => decide (x = a)) ≤
              order.findIdx (fun x => decide (x = b)))
          let p2 := (List.range rem.toNat).foldl (fun p idx =>
            let w := winnersOrdered.getD (idx % winnersOrdered.length) 0
            upd p w (p w + 1)) p1
          calc_payouts_level contribs contribKeys ranksKeys ranks order rest L p2

/-- `_calculate_payouts` from `game.py`. -/
def calculate_payouts (contribs : Nat → Int) (contribKeys ranksKeys : List Nat)
    (ranks : Nat → Nat × List Nat) (order : List Nat) : Nat → Int :=
  let levels := (((contribKeys.map contribs).filter (fun a => 0 < a)).dedup).insertionSort
    (fun a b => a ≤ b)
  calc_payouts_level contribs contribKeys ranksKeys ranks order levels 0 (fun _ => 0)

/-- `_resolve_showdown` from `game.py`: winners and deltas. -/
def resolve_showdown (order : List Nat) (folded : Finset Nat)
    (hole : Nat → List CardE) (board : List CardE) (contribs : Nat → Int) :
    List Nat × (Nat → Int) :=
  let showdown := live_seats order folded
  let ranks := fun s => evaluate_best_hand (hole s ++ board)
  let best := pymax_rank (showdown.map ranks)
  let winners := showdown.filter (fun s => ranks s = best)
  let payouts := calculate_payouts contribs order showdown ranks order
  (winners, fun s => payouts s - contribs s)

/-- `_finalize_folded_hand` from `game.py`. -/
def finalize_folded (winner : Nat) (contribs : Nat → Int) (order : List Nat) :
    List Nat × (Nat → Int) :=
  let payouts := upd (fun _ => 0) winner ((order.map contribs).sum)
  ([winner], fun s => payouts s - contribs s)

/-- `HandResult` restricted to the outcome fields the claims speak
about. -/
structure HandResultE where
  winners : List Nat
  pot_cents : Int
  deltas : Nat → Int
  active_seats : List Nat

def mk_folded_result (order : List Nat) (st : RoundState) (w : Nat) :
    HandResultE :=
  ⟨(finalize_folded w st.contribs order).1, st.pot,
    (finalize_folded w st.contribs order).2, order⟩

def mk_showdown_result (order : List Nat) (st : RoundState)
    (hole : Nat → List CardE) (board : List CardE) : HandResultE :=
  ⟨(resolve_showdown order st.folded hole board st.contribs).1, st.pot,
    (resolve_showdown order st.folded hole board st.contribs).2, order⟩

/-- The between-street reset (`_reset_bets`, `current_bet = 0`,
`min_raise = big_blind_cents`). -/
def reset_street (st : RoundState) (bb : Int) : RoundState :=
  { st with bets := fun _ => 0, currentBet := 0, minRaise := bb }

/-- The flop/turn/river part of `play_hand`: for each street, reset the
per-street state, deal the street cards, run the betting round, and
short-circuit on a folded winner or an all-in board run-out.  (After the
river the run-out check is vacuous: the board already has five cards and
the remaining deal is a no-op, so checking it uniformly is equivalent to
the source, which only checks after flop and turn.) -/
def run_streets (acts : Nat → RawAction) (order : List Nat) (fuel : Nat)
    (hole : Nat → List CardE) (bb : Int) (postStart : Nat) :
    List Nat → List CardE → List CardE → RoundState → Option HandResultE
  | [], board, _, st => some (mk_showdown_result order st hole board)
  | n :: restStreets, board, deck, st =>
    match deal_board n board deck with
    | none => none
    | some (board2, deck2) =>
      match run_betting_round acts order fuel (reset_street st bb) postStart with
      | none => none
      | some (st2, some w) => some (mk_folded_result order st2 w)
      | some (st2, none) =>
        if no_actionable order st2.folded st2.stackOf then
          some (mk_showdown_result order st2 hole (deal_remaining board2 deck2))
        else
          run_streets acts order fuel hole bb postStart restStreets board2 deck2 st2

/-- `play_hand` from `game.py`.  `deck0` is the deck after the shuffle
(the RNG permutation is an input), `seats` the keys of the bots dict,
`S0`/`sb`/`bb` the engine parameters.  `none` models the exceptional
paths (fewer than two seats, an exhausted deck) and fuel exhaustion of
the betting loop. -/
def play_hand (acts : Nat → RawAction) (deck0 : List CardE) (seats : List Nat)
    (button0 : Nat) (S0 sb bb : Int) (fuel : Nat) : Option HandResultE :=
  let order := seats.insertionSort (fun a b => a ≤ b)
  if order.length < 2 then none
  else
    let button := if button0 ∈ order then button0 else order.headD 0
    match deal_hole order deck0 (fun _ => []) with
    | none => none
    | some (hole, deck1) =>
      let pos := blind_positions order button
      let st0 : RoundState :=
        { stackOf := fun _ => S0, bets := fun _ => 0, contribs := fun _ => 0,
          pot := 0, currentBet := 0, minRaise := 0,
          folded := ∅, pending := ∅, calls := 0 }
      let st1 := post_blind st0 pos.1 sb
      let st2 := post_blind st1 pos.2.1 bb
      let st3 := { st2 with currentBet := st2.bets pos.2.1, minRaise := bb }
      match run_betting_round acts order fuel st3 pos.2.2.1 with
      | none => none
      | some (st4, some w) => some (mk_folded_result order st4 w)
      | some (st4, none) =>
        if no_actionable order st4.folded st4.stackOf then
          some (mk_showdown_result order st4 hole (deal_remaining [] deck1))
        else
          run_streets acts order fuel hole bb pos.2.2.2 [3, 1, 1] [] deck1 st4

/-! ## Engine invariants

`RoundInv` is the inductive invariant of the betting loop.  `base` is
the amount every live seat with chips behind had contributed when the
current street began (0 preflop, where contributions equal street
bets). -/

structure RoundInv (order : List Nat) (S0 base : Int) (st : RoundState) : Prop where
  conserve : ∀ s ∈ order, st.stackOf s + st.contribs s = S0
  stacksNN : ∀ s ∈ order, 0 ≤ st.stackOf s
  betsNN : ∀ s ∈ order, 0 ≤ st.bets s
  betsLeCB : ∀ s ∈ order, st.bets s ≤ st.currentBet
  betsLeContrib : ∀ s ∈ order, st.bets s ≤ st.contribs s
  liveBase : ∀ s ∈ order, s ∉ st.folded → 0 < st.stackOf s →
    st.contribs s = base + st.bets s
  contribLe : ∀ s ∈ order, st.contribs s ≤ base + st.currentBet
  baseCBLe : base + st.currentBet ≤ S0
  baseNN : 0 ≤ base
  cbNN : 0 ≤ st.currentBet
  notPendingMatched : ∀ s ∈ order, s ∉ st.folded → 0 < st.stackOf s →
    s ∉ st.pending → st.bets s = st.currentBet
  pendLive : ∀ s ∈ st.pending, s ∈ order ∧ s ∉ st.folded ∧ 0 < st.stackOf s
  foldedSub : ∀ s ∈ st.folded, s ∈ order
  liveGe2 : 2 ≤ (live_seats order st.folded).length

/-- The part of `RoundInv` that makes sense between betting rounds
(`pending` is rebuilt when the next round starts). -/
structure StreetInv (order : List Nat) (S0 base : Int) (st : RoundState) : Prop where
  conserve : ∀ s ∈ order, st.stackOf s + st.contribs s = S0
  stacksNN : ∀ s ∈ order, 0 ≤ st.stackOf s
  betsNN : ∀ s ∈ order, 0 ≤ st.bets s
  betsLeCB : ∀ s ∈ order, st.bets s ≤ st.currentBet
  betsLeContrib : ∀ s ∈ order, st.bets s ≤ st.contribs s
  liveBase : ∀ s ∈ order, s ∉ st.folded → 0 < st.stackOf s →
    st.contribs s = base + st.bets s
  contribLe : ∀ s ∈ order, st.contribs s ≤ base + st.currentBet
  baseCBLe : base + st.currentBet ≤ S0
  baseNN : 0 ≤ base
  cbNN : 0 ≤ st.currentBet
  foldedSub : ∀ s ∈ st.folded, s ∈ order
  liveGe2 : 2 ≤ (live_seats order st.folded).length

theorem round_pending_mem (order : List Nat) (folded : Finset Nat)
    (stacks0 : Nat → Int) (s : Nat) :
    s ∈ round_pending order folded stacks0 ↔
      s ∈ order ∧ s ∉ folded ∧ 0 < stacks0 s := by
  unfold round_pending live_seats
  simp only [List.mem_toFinset, List.mem_filter, decide_eq_true_eq, and_assoc]

/-- Entering a betting round: rebuilding `pending` turns the street
invariant into the loop invariant. -/
theorem street_to_round (order : List Nat) (S0 base : Int) (st : RoundState)
    (h : StreetInv order S0 base st) :
    RoundInv order S0 base
      { st with pending := round_pending order st.folded st.stackOf } := by
  refine ⟨h.conserve, h.stacksNN, h.betsNN, h.betsLeCB, h.betsLeContrib,
    h.liveBase, h.contribLe, h.baseCBLe, h.baseNN, h.cbNN, ?_, ?_, h.foldedSub,
    h.liveGe2⟩
  · intro s hso hsf hst hsp
    exact absurd ((round_pending_mem order st.folded st.stackOf s).mpr
      ⟨hso, hsf, hst⟩) hsp
  · intro s hs
    exact (round_pending_mem order st.folded st.stackOf s).mp hs

/-- At the end of a betting round every live seat is a maximal
contributor: an all-in live seat holds `S0`, and a live seat with chips
has matched `base + current_bet`, which bounds every contribution. -/
theorem max_live_contrib (order : List Nat) (S0 base : Int) (st : RoundState)
    (hInv : RoundInv order S0 base st) (hpend : st.pending = ∅) :
    ∃ m ∈ live_seats order st.folded, ∀ t ∈ order, st.contribs t ≤ st.contribs m := by
  have hne : live_seats order st.folded ≠ [] := by
    intro h
    have := hInv.liveGe2
    rw [h] at this
    simp at this
  obtain ⟨m, hm⟩ : ∃ m, m ∈ live_seats order st.folded := by
    cases hl : live_seats order st.folded with
    | nil => exact absurd hl hne
    | cons x xs => exact ⟨x, hl ▸ List.mem_cons_self x xs⟩
  have hmo : m ∈ order := (List.mem_filter.mp hm).1
  have hmf : m ∉ st.folded := by
    have := (List.mem_filter.mp hm).2
    simpa using this
  refine ⟨m, hm, ?_⟩
  intro t hto
  by_cases hstk : 0 < st.stackOf m
  · have hmp : m ∉ st.pending := by rw [hpend]; exact Finset.not_mem_empty m
    have hbm := hInv.notPendingMatched m hmo hmf hstk hmp
    have hcm := hInv.liveBase m hmo hmf hstk
    rw [hcm, hbm]
    exact hInv.contribLe t hto
  · have h0 : st.stackOf m = 0 := le_antisymm (by omega) (hInv.stacksNN m hmo)
    have hcm : st.contribs m = S0 := by
      have := hInv.conserve m hmo
      omega
    have := hInv.conserve t hto
    have := hInv.stacksNN t hto
    omega

/-! ### Sum helpers -/

def sum_over (order : List Nat) (f : Nat → Int) : Int := (order.map f).sum

theorem sum_over_congr (order : List Nat) (f g : Nat → Int)
    (h : ∀ s ∈ order, f s = g s) : sum_over order f = sum_over order g := by
  unfold sum_over
  induction order with
  | nil => rfl
  | cons a t ih =>
    simp only [List.map_cons, List.sum_cons]
    rw [h a (List.mem_cons_self a t), ih (fun s hs => h s (List.mem_cons_of_mem a hs))]

theorem sum_over_add (order : List Nat) (f g : Nat → Int) :
    sum_over order (fun s => f s + g s) = sum_over order f + sum_over order g := by
  unfold sum_over
  induction order with
  | nil => rfl
  | cons a t ih =>
    simp only [List.map_cons, List.sum_cons]
    rw [ih]
    ring

theorem sum_over_sub (order : List Nat) (f g : Nat → Int) :
    sum_over order (fun s => f s - g s) = sum_over order f - sum_over order g := by
  unfold sum_over
  induction order with
  | nil => rfl
  | cons a t ih =>
    simp only [List.map_cons, List.sum_cons]
    rw [ih]
    ring

theorem sum_over_zero (order : List Nat) : sum_over order (fun _ => 0) = 0 := by
  unfold sum_over
  induction order with
  | nil => rfl
  | cons a t ih => simpa using ih

theorem sum_over_upd (order : List Nat) (hnd : order.Nodup) (p : Nat → Int)
    (w : Nat) (hw : w ∈ order) (x : Int) :
    sum_over order (upd p w (p w + x)) = sum_over order p + x := by
  unfold sum_over
  induction order with
  | nil => cases hw
  | cons a t ih =>
    rcases List.mem_cons.mp hw with rfl | hwt
    · have hnt : w ∉ t := (List.nodup_cons.mp hnd).1
      simp only [List.map_cons, List.sum_cons, upd_same]
      have : t.map (upd p w (p w + x)) = t.map p := by
        apply List.map_congr_left
        intro s hs
        exact upd_other p w (p w + x) s (fun h => hnt (h ▸ hs))
      rw [this]
      ring
    · have hat : a ≠ w := by
        intro h
        exact (List.nodup_cons.mp hnd).1 (h ▸ hwt)
      simp only [List.map_cons, List.sum_cons]
      rw [upd_other p w (p w + x) a hat,
        ih (List.nodup_cons.mp hnd).2 hwt]
      ring

theorem sum_over_foldl_upd (order : List Nat) (hnd : order.Nodup) (each : Int) :
    ∀ (winners : List Nat) (p : Nat → Int), (∀ w ∈ winners, w ∈ order) →
    sum_over order (winners.foldl (fun q s => upd q s (q s + each)) p) =
      sum_over order p + each * winners.length := by
  intro winners
  induction winners with
  | nil => intro p _; simp
  | cons w t ih =>
    intro p hsub
    simp only [List.foldl_cons, List.length_cons]
    rw [ih (upd p w (p w + each)) (fun x hx => hsub x (List.mem_cons_of_mem w hx)),
      sum_over_upd order hnd p w (hsub w (List.mem_cons_self w t)) each]
    push_cast
    ring

theorem sum_over_remainder (order : List Nat) (hnd : order.Nodup)
    (wo : List Nat) (hne : wo ≠ []) (hsub : ∀ w ∈ wo, w ∈ order) :
    ∀ (rem : Nat) (p : Nat → Int),
    sum_over order ((List.range rem).foldl (fun q idx =>
      upd q (wo.getD (idx % wo.length) 0) (q (wo.getD (idx % wo.length) 0) + 1)) p) =
      sum_over order p + rem := by
  intro rem
  induction rem with
  | zero => intro p; simp
  | succ n ih =>
    intro p
    rw [List.range_succ, List.foldl_append]
    simp only [List.foldl_cons, List.foldl_nil]
    have hlen : 0 < wo.length := List.length_pos.mpr hne
    have hmem : wo.getD (n % wo.length) 0 ∈ wo := by
      have h2 : n % wo.length < wo.length := Nat.mod_lt n hlen
      rw [List.getD_eq_getElem wo 0 h2]
      exact List.getElem_mem h2
    rw [sum_over_upd order hnd _ _ (hsub _ hmem) 1, ih p]
    push_cast
    ring

theorem sum_over_slice (order : List Nat) (c : Nat → Int) (L v : Int) :
    sum_over order (fun s => if L ≤ c s then v else 0) =
      v * (order.filter (fun s => L ≤ c s)).length := by
  unfold sum_over
  induction order with
  | nil => simp
  | cons a t ih =>
    simp only [List.map_cons, List.sum_cons, List.filter_cons]
    by_cases h : L ≤ c a
    · rw [if_pos h, if_pos (by simpa using h), ih]
      simp only [List.length_cons]
      push_cast
      ring
    · rw [if_neg h, if_neg (by simpa using h), ih]
      ring

theorem pymax_rank_mem : ∀ (l : List (Nat × List Nat)), l ≠ [] →
    pymax_rank l ∈ l := by
  have hgen : ∀ (rest : List (Nat × List Nat)) (x : Nat × List Nat),
      rest.foldl (fun acc r => if rank_lt acc r then r else acc) x ∈ x :: rest := by
    intro rest
    induction rest with
    | nil => intro x; exact List.mem_cons_self x []
    | cons r t ih =>
      intro x
      simp only [List.foldl_cons]
      rcases List.mem_cons.mp (ih (if rank_lt x r then r else x)) with h | h
      · rw [h]
        by_cases hc : rank_lt x r
        · rw [if_pos hc]; simp
        · rw [if_neg hc]; simp
      · simp [h]
  intro l hne
  cases l with
  | nil => cases hne rfl
  | cons x rest =>
    exact hgen rest x

/-! ### `_next_pending_seat` facts -/

theorem next_pending_mem {cur : Nat} {order : List Nat} {pending : Finset Nat}
    {s : Nat} (h : next_pending_seat cur order pending = some s) : s ∈ pending := by
  unfold next_pending_seat at h
  by_cases h1 : pending = ∅
  · rw [if_pos h1] at h
    cases h
  · rw [if_neg h1] at h
    by_cases h2 : order.length = 0
    · rw [if_pos h2] at h
      cases h
    · rw [if_neg h2] at h
      rcases List.exists_of_findSome?_eq_some h with ⟨off, hoff, hf⟩
      simp only at hf
      split_ifs at hf with hmem
      cases hf
      exact hmem

theorem mod_cycle (len a i : Nat) (ha : a < len) (hi : i < len) :
    (a + (i + len - a) % len) % len = i := by
  have h1 : (a + (i + len - a) % len) % len = (a + (i + len - a)) % len := by
    conv_lhs => rw [Nat.add_mod]
    conv_rhs => rw [Nat.add_mod]
    rw [Nat.mod_mod_of_dvd _ (dvd_refl len)]
  rw [h1]
  have h2 : a + (i + len - a) = i + len := by omega
  rw [h2, Nat.add_mod_right, Nat.mod_eq_of_lt hi]

theorem next_pending_some (cur : Nat) (order : List Nat) (pending : Finset Nat)
    (hne : pending ≠ ∅) (hsub : ∀ s ∈ pending, s ∈ order) :
    ∃ s, next_pending_seat cur order pending = some s := by
  obtain ⟨p, hp⟩ := Finset.nonempty_iff_ne_empty.mpr hne
  have hpo : p ∈ order := hsub p hp
  have hlen : 0 < order.length := List.length_pos.mpr (by
    intro h
    rw [h] at hpo
    cases hpo)
  obtain ⟨i, hi, hgi⟩ := List.getElem_of_mem hpo
  unfold next_pending_seat
  rw [if_neg hne, if_neg (by omega)]
  cases hfind : (List.range order.length).findSome? (fun off =>
      let s := order.getD
        (((order.findIdx? (fun s => decide (s = cur))).getD (order.length - 1) + off + 1) %
          order.length) 0
      if s ∈ pending then some s else none) with
  | some s => exact ⟨s, rfl⟩
  | none =>
    exfalso
    have hall := List.findSome?_eq_none_iff.mp hfind
    have ha : ((order.findIdx? (fun s => decide (s = cur))).getD (order.length - 1) + 1) %
        order.length < order.length := Nat.mod_lt _ hlen
    have hofflt : (i + order.length -
        ((order.findIdx? (fun s => decide (s = cur))).getD (order.length - 1) + 1) %
          order.length) % order.length < order.length := Nat.mod_lt _ hlen
    have hoffr := List.mem_range.mpr hofflt
    have hidx : ((order.findIdx? (fun s => decide (s = cur))).getD (order.length - 1) +
        ((i + order.length -
          ((order.findIdx? (fun s => decide (s = cur))).getD (order.length - 1) + 1) %
            order.length) % order.length) + 1) % order.length = i := by
      have h3 : (order.findIdx? (fun s => decide (s = cur))).getD (order.length - 1) +
          ((i + order.length -
            ((order.findIdx? (fun s => decide (s = cur))).getD (order.length - 1) + 1) %
              order.length) % order.length) + 1 =
          ((order.findIdx? (fun s => decide (s = cur))).getD (order.length - 1) + 1) +
          ((i + order.length -
            ((order.findIdx? (fun s => decide (s = cur))).getD (order.length - 1) + 1) %
              order.length) % order.length) := by omega
      rw [h3, Nat.add_mod, Nat.mod_eq_of_lt hofflt]
      exact mod_cycle order.length _ i ha hi
    have hthis := hall _ hoffr
    simp only at hthis
    rw [hidx, List.getD_eq_getElem order 0 hi, hgi, if_pos hp] at hthis
    cases hthis

/-! ### `live_seats` facts -/

theorem live_seats_sub {order : List Nat} {folded : Finset Nat} {s : Nat}
    (h : s ∈ live_seats order folded) : s ∈ order ∧ s ∉ folded := by
  have := List.mem_filter.mp h
  exact ⟨this.1, by simpa using this.2⟩

theorem live_seats_insert_length (order : List Nat) (hnd : order.Nodup)
    (folded : Finset Nat) (cur : Nat) (hco : cur ∈ order) (hcf : cur ∉ folded) :
    (live_seats order (insert cur folded)).length + 1 =
      (live_seats order folded).length := by
  unfold live_seats
  induction order with
  | nil => cases hco
  | cons a t ih =>
    have hnd2 := (List.nodup_cons.mp hnd).2
    have hat := (List.nodup_cons.mp hnd).1
    by_cases hca : a = cur
    · subst hca
      simp only [List.filter_cons]
      rw [if_neg (by simp), if_pos (by simpa using hcf)]
      have heq : t.filter (fun s => decide (s ∉ insert a folded)) =
          t.filter (fun s => decide (s ∉ folded)) := by
        apply List.filter_congr
        intro x hx
        have hxa : x ≠ a := fun h => hat (h ▸ hx)
        simp [Finset.mem_insert, hxa]
      rw [heq]
      simp
    · have hct : cur ∈ t := by
        rcases List.mem_cons.mp hco with h | h
        · exact absurd h.symm hca
        · exact h
      simp only [List.filter_cons]
      by_cases haf : a ∈ folded
      · rw [if_neg (by simp [haf]), if_neg (by simp [Finset.mem_insert, haf])]
        exact ih hnd2 hct
      · have hcond : a ∉ insert cur folded := by
          rw [Finset.mem_insert]
          push_neg
          exact ⟨hca, haf⟩
        rw [if_pos (by simpa using hcond), if_pos (by simp [haf])]
        simp only [List.length_cons]
        rw [← ih hnd2 hct]

/-! ### Preservation of the loop invariant by one step -/

theorem step_fold_spec (order : List Nat) (S0 base : Int) (st : RoundState)
    (cur : Nat) (amt : Int) (hnd : order.Nodup)
    (hInv : RoundInv order S0 base st) (hcur : cur ∈ st.pending) :
    match step_apply order st cur (pfold, amt) with
    | .winner st2 w => w ∈ order ∧ st2.stackOf = st.stackOf ∧ st2.bets = st.bets ∧
        st2.contribs = st.contribs ∧ st2.folded = insert cur st.folded
    | .next st2 s2 => RoundInv order S0 base st2 ∧
        st2.pending = st.pending.erase cur ∧ st2.currentBet = st.currentBet ∧
        (st2.pending ≠ ∅ → s2 ≠ none) ∧ (∀ s, s2 = some s → s ∈ st2.pending)
    | .over _ => False := by
  obtain ⟨hco, hcf, hcs⟩ := hInv.pendLive cur hcur
  unfold step_apply
  simp only []
  by_cases hone : (live_seats order (insert cur st.folded)).length = 1
  · rw [if_pos hone]
    have hne : live_seats order (insert cur st.folded) ≠ [] := by
      intro h
      rw [h] at hone
      simp at hone
    have hmem : (live_seats order (insert cur st.folded)).headD 0 ∈
        live_seats order (insert cur st.folded) := by
      cases hl : live_seats order (insert cur st.folded) with
      | nil => exact absurd hl hne
      | cons x xs => simp
    exact ⟨(live_seats_sub hmem).1, rfl, rfl, rfl, rfl⟩
  · rw [if_neg hone]
    have hpend2 : ∀ s ∈ st.pending.erase cur,
        s ∈ order ∧ s ∉ insert cur st.folded ∧ 0 < st.stackOf s := by
      intro s hs
      obtain ⟨hsc, hsp⟩ := Finset.mem_erase.mp hs
      obtain ⟨h1, h2, h3⟩ := hInv.pendLive s hsp
      refine ⟨h1, ?_, h3⟩
      intro hmem
      rcases Finset.mem_insert.mp hmem with h | h
      · exact hsc h
      · exact h2 h
    refine ⟨?_, rfl, rfl, ?_, ?_⟩
    · refine ⟨hInv.conserve, hInv.stacksNN, hInv.betsNN, hInv.betsLeCB,
        hInv.betsLeContrib, ?_, hInv.contribLe, hInv.baseCBLe, hInv.baseNN,
        hInv.cbNN, ?_, hpend2, ?_, ?_⟩
      · intro s hs hsf hss
        exact hInv.liveBase s hs (fun h => hsf (Finset.mem_insert_of_mem h)) hss
      · intro s hs hsf hss hsp
        have hsc : s ≠ cur := by
          intro h
          exact hsf (h ▸ Finset.mem_insert_self cur st.folded)
        have hsp2 : s ∉ st.pending := by
          intro h
          exact hsp (Finset.mem_erase.mpr ⟨hsc, h⟩)
        exact hInv.notPendingMatched s hs
          (fun h => hsf (Finset.mem_insert_of_mem h)) hss hsp2
      · intro s hs
        rcases Finset.mem_insert.mp hs with h | h
        · exact h ▸ hco
        · exact hInv.foldedSub s h
      · show 2 ≤ (live_seats order (insert cur st.folded)).length
        have h1 := live_seats_insert_length order hnd st.folded cur hco hcf
        have h2 := hInv.liveGe2
        omega
    · intro hne2
      obtain ⟨s, hs⟩ := next_pending_some cur order _ hne2
        (fun s hs => (hpend2 s hs).1)
      rw [hs]
      exact Option.some_ne_none s
    · intro s hs
      exact next_pending_mem hs

theorem step_check_spec (order : List Nat) (S0 base : Int) (st : RoundState)
    (cur : Nat) (amt : Int) (hnd : order.Nodup)
    (hInv : RoundInv order S0 base st) (hcur : cur ∈ st.pending)
    (ht : st.currentBet - st.bets cur ≤ 0) :
    match step_apply order st cur (pcheck, amt) with
    | .winner _ _ => False
    | .next st2 s2 => RoundInv order S0 base st2 ∧
        st2.pending = st.pending.erase cur ∧ st2.currentBet = st.currentBet ∧
        (st2.pending ≠ ∅ → s2 ≠ none) ∧ (∀ s, s2 = some s → s ∈ st2.pending)
    | .over st2 => RoundInv order S0 base st2 ∧ st2.pending = ∅ := by
  obtain ⟨hco, hcf, hcs⟩ := hInv.pendLive cur hcur
  have hbcur : st.bets cur = st.currentBet :=
    le_antisymm (hInv.betsLeCB cur hco) (by omega)
  have hInv2 : RoundInv order S0 base { st with pending := st.pending.erase cur } := by
    refine ⟨hInv.conserve, hInv.stacksNN, hInv.betsNN, hInv.betsLeCB,
      hInv.betsLeContrib, hInv.liveBase, hInv.contribLe, hInv.baseCBLe,
      hInv.baseNN, hInv.cbNN, ?_, ?_, hInv.foldedSub, hInv.liveGe2⟩
    · intro s hs hsf hss hsp
      by_cases hsc : s = cur
      · exact hsc ▸ hbcur
      · have hsp2 : s ∉ st.pending := by
          intro h
          exact hsp (Finset.mem_erase.mpr ⟨hsc, h⟩)
        exact hInv.notPendingMatched s hs hsf hss hsp2
    · intro s hs
      exact hInv.pendLive s (Finset.mem_of_mem_erase hs)
  unfold step_apply
  simp only []
  by_cases hemp : st.pending.erase cur = ∅
  · rw [if_pos hemp]
    exact ⟨hInv2, hemp⟩
  · rw [if_neg hemp]
    refine ⟨hInv2, rfl, rfl, ?_, ?_⟩
    · intro hne2
      obtain ⟨s, hs⟩ := next_pending_some cur order _ hne2
        (fun s hs => (hInv2.pendLive s hs).1)
      rw [hs]
      exact Option.some_ne_none s
    · intro s hs
      exact next_pending_mem hs

theorem step_call_spec (order : List Nat) (S0 base : Int) (st : RoundState)
    (cur : Nat) (hnd : order.Nodup)
    (hInv : RoundInv order S0 base st) (hcur : cur ∈ st.pending)
    (ht : 0 < st.currentBet - st.bets cur) :
    match step_apply order st cur
        (pcall, min (st.currentBet - st.bets cur) (st.stackOf cur)) with
    | .winner _ _ => False
    | .next st2 s2 => RoundInv order S0 base st2 ∧
        st2.pending = st.pending.erase cur ∧ st2.currentBet = st.currentBet ∧
        (st2.pending ≠ ∅ → s2 ≠ none) ∧ (∀ s, s2 = some s → s ∈ st2.pending)
    | .over st2 => RoundInv order S0 base st2 ∧ st2.pending = ∅ := by
  obtain ⟨hco, hcf, hcs⟩ := hInv.pendLive cur hcur
  have hccons := hInv.conserve cur hco
  have hcbc := hInv.betsLeCB cur hco
  have hcbcon := hInv.betsLeContrib cur hco
  have hlb := hInv.liveBase cur hco hcf hcs
  have hInv2 : RoundInv order S0 base
      (apply_call st cur (min (st.currentBet - st.bets cur) (st.stackOf cur))) := by
    unfold apply_call
    refine ⟨?_, ?_, ?_, ?_, ?_, ?_, ?_, hInv.baseCBLe, hInv.baseNN, hInv.cbNN,
      ?_, ?_, hInv.foldedSub, hInv.liveGe2⟩
    · intro s hs
      by_cases hsc : s = cur
      · simp only [hsc, upd_same]
        omega
      · simp only [upd_other _ _ _ _ hsc]
        exact hInv.conserve s hs
    · intro s hs
      by_cases hsc : s = cur
      · simp only [hsc, upd_same]
        omega
      · simp only [upd_other _ _ _ _ hsc]
        exact hInv.stacksNN s hs
    · intro s hs
      by_cases hsc : s = cur
      · simp only [hsc, upd_same]
        have := hInv.betsNN cur hco
        omega
      · simp only [upd_other _ _ _ _ hsc]
        exact hInv.betsNN s hs
    · intro s hs
      by_cases hsc : s = cur
      · simp only [hsc, upd_same]
        omega
      · simp only [upd_other _ _ _ _ hsc]
        exact hInv.betsLeCB s hs
    · intro s hs
      by_cases hsc : s = cur
      · simp only [hsc, upd_same]
        omega
      · simp only [upd_other _ _ _ _ hsc]
        exact hInv.betsLeContrib s hs
    · intro s hs hsf hss
      by_cases hsc : s = cur
      · simp only [hsc, upd_same]
        omega
      · simp only [upd_other _ _ _ _ hsc] at hss ⊢
        exact hInv.liveBase s hs hsf hss
    · intro s hs
      by_cases hsc : s = cur
      · simp only [hsc, upd_same]
        have := hInv.contribLe cur hco
        omega
      · simp only [upd_other _ _ _ _ hsc]
        exact hInv.contribLe s hs
    · intro s hs hsf hss hsp
      by_cases hsc : s = cur
      · simp only [hsc, upd_same] at hss ⊢
        omega
      · simp only [upd_other _ _ _ _ hsc] at hss ⊢
        have hsp2 : s ∉ st.pending := by
          intro h
          exact hsp (Finset.mem_erase.mpr ⟨hsc, h⟩)
        exact hInv.notPendingMatched s hs hsf hss hsp2
    · intro s hs
      obtain ⟨hsc, hsp⟩ := Finset.mem_erase.mp hs
      obtain ⟨h1, h2, h3⟩ := hInv.pendLive s hsp
      refine ⟨h1, h2, ?_⟩
      simp only [upd_other _ _ _ _ hsc]
      exact h3
  have hpend2 :
      (apply_call st cur (min (st.currentBet - st.bets cur) (st.stackOf cur))).pending =
        st.pending.erase cur := rfl
  have hcb2 :
      (apply_call st cur (min (st.currentBet - st.bets cur) (st.stackOf cur))).currentBet =
        st.currentBet := rfl
  unfold step_apply
  simp only []
  by_cases hemp :
      (apply_call st cur (min (st.currentBet - st.bets cur) (st.stackOf cur))).pending = ∅
  · rw [if_pos hemp]
    exact ⟨hInv2, hemp⟩
  · rw [if_neg hemp]
    refine ⟨hInv2, hpend2, hcb2, ?_, ?_⟩
    · intro hne2
      obtain ⟨s, hs⟩ := next_pending_some cur order _ hne2
        (fun s hs => (hInv2.pendLive s hs).1)
      rw [hs]
      exact Option.some_ne_none s
    · intro s hs
      exact next_pending_mem hs

theorem step_bet_spec (order : List Nat) (S0 base : Int) (st : RoundState)
    (cur : Nat) (a : PAct) (amt : Int) (hnd : order.Nodup)
    (hInv : RoundInv order S0 base st) (hcur : cur ∈ st.pending)
    (ha : a = pbet ∨ a = praise)
    (hgt : st.currentBet < amt) (hle : amt ≤ st.bets cur + st.stackOf cur) :
    match step_apply order st cur (a, amt) with
    | .winner _ _ => False
    | .next st2 s2 => RoundInv order S0 base st2 ∧
        st.currentBet < st2.currentBet ∧ st2.currentBet + base ≤ S0 ∧
        (st2.pending ≠ ∅ → s2 ≠ none) ∧ (∀ s, s2 = some s → s ∈ st2.pending)
    | .over st2 => RoundInv order S0 base st2 ∧ st2.pending = ∅ := by
  obtain ⟨hco, hcf, hcs⟩ := hInv.pendLive cur hcur
  have hccons := hInv.conserve cur hco
  have hcbc := hInv.betsLeCB cur hco
  have hcbcon := hInv.betsLeContrib cur hco
  have hlb := hInv.liveBase cur hco hcf hcs
  have hd : min (max (amt - st.bets cur) 0) (st.stackOf cur) = amt - st.bets cur := by
    omega
  have hnewbet : st.bets cur + min (max (amt - st.bets cur) 0) (st.stackOf cur) = amt := by
    omega
  have hInv2 : RoundInv order S0 base (apply_bet_raise order st cur amt) := by
    unfold apply_bet_raise
    simp only []
    refine ⟨?_, ?_, ?_, ?_, ?_, ?_, ?_, ?_, hInv.baseNN, ?_, ?_, ?_,
      hInv.foldedSub, hInv.liveGe2⟩
    · intro s hs
      by_cases hsc : s = cur
      · simp only [hsc, upd_same]
        omega
      · simp only [upd_other _ _ _ _ hsc]
        exact hInv.conserve s hs
    · intro s hs
      by_cases hsc : s = cur
      · simp only [hsc, upd_same]
        omega
      · simp only [upd_other _ _ _ _ hsc]
        exact hInv.stacksNN s hs
    · intro s hs
      by_cases hsc : s = cur
      · simp only [hsc, upd_same]
        have := hInv.cbNN
        omega
      · simp only [upd_other _ _ _ _ hsc]
        exact hInv.betsNN s hs
    · intro s hs
      by_cases hsc : s = cur
      · simp only [hsc, upd_same]
        omega
      · simp only [upd_other _ _ _ _ hsc]
        have := hInv.betsLeCB s hs
        omega
    · intro s hs
      by_cases hsc : s = cur
      · simp only [hsc, upd_same]
        omega
      · simp only [upd_other _ _ _ _ hsc]
        exact hInv.betsLeContrib s hs
    · intro s hs hsf hss
      by_cases hsc : s = cur
      · simp only [hsc, upd_same]
        omega
      · simp only [upd_other _ _ _ _ hsc] at hss ⊢
        have := hInv.liveBase s hs hsf hss
        have := hInv.contribLe s hs
        omega
    · intro s hs
      by_cases hsc : s = cur
      · simp only [hsc, upd_same]
        omega
      · simp only [upd_other _ _ _ _ hsc]
        have := hInv.contribLe s hs
        omega
    · show base + (st.bets cur + min (max (amt - st.bets cur) 0) (st.stackOf cur)) ≤ S0
      omega
    · show (0 : Int) ≤ st.bets cur + min (max (amt - st.bets cur) 0) (st.stackOf cur)
      have := hInv.cbNN
      omega
    · intro s hs hsf hss hsp
      by_cases hsc : s = cur
      · simp only [hsc, upd_same]
      · exfalso
        simp only [upd_other _ _ _ _ hsc] at hss
        apply hsp
        apply Finset.mem_erase.mpr
        refine ⟨hsc, ?_⟩
        apply List.mem_toFinset.mpr
        apply List.mem_filter.mpr
        refine ⟨?_, ?_⟩
        · unfold live_seats
          apply List.mem_filter.mpr
          refine ⟨hs, by simpa using hsf⟩
        · simp only [upd_other _ _ _ _ hsc]
          simpa using hss
    · intro s hs
      obtain ⟨hsc, hsp⟩ := Finset.mem_erase.mp hs
      obtain ⟨hlive, hstk⟩ := List.mem_filter.mp (List.mem_toFinset.mp hsp)
      obtain ⟨h1, h2⟩ := live_seats_sub hlive
      exact ⟨h1, h2, by simpa using hstk⟩
  have hcb2 : (apply_bet_raise order st cur amt).currentBet = amt := by
    show st.bets cur + min (max (amt - st.bets cur) 0) (st.stackOf cur) = amt
    omega
  have hred : step_apply order st cur (a, amt) =
      (let st2 := apply_bet_raise order st cur amt
       if st2.pending = ∅ then StepOut.over st2
       else StepOut.next st2 (next_pending_seat cur order st2.pending)) := by
    rcases ha with rfl | rfl <;> rfl
  rw [hred]
  simp only []
  by_cases hemp : (apply_bet_raise order st cur amt).pending = ∅
  · rw [if_pos hemp]
    exact ⟨hInv2, hemp⟩
  · rw [if_neg hemp]
    refine ⟨hInv2, ?_, ?_, ?_, ?_⟩
    · rw [hcb2]
      exact hgt
    · rw [hcb2]
      omega
    · intro hne2
      obtain ⟨s, hs⟩ := next_pending_some cur order _ hne2
        (fun s hs => (hInv2.pendLive s hs).1)
      rw [hs]
      exact Option.some_ne_none s
    · intro s hs
      exact next_pending_mem hs


/-! ### The hand-level invariants the spec claims -/

/-- The three state invariants of claim C2: chip conservation between
stacks and contributions, per-seat street bets bounded by
contributions, and the folded set contained in the active seats. -/
def HandInvariants (order : List Nat) (S0 : Int) (st : RoundState) : Prop :=
  sum_over order st.stackOf + sum_over order st.contribs = order.length * S0 ∧
  (∀ s ∈ order, st.bets s ≤ st.contribs s) ∧
  (∀ s ∈ st.folded, s ∈ order)

theorem sum_over_const (order : List Nat) (c : Int) :
    sum_over order (fun _ => c) = order.length * c := by
  unfold sum_over
  induction order with
  | nil => simp
  | cons a t ih =>
    simp only [List.map_cons, List.sum_cons, List.length_cons]
    rw [ih]
    push_cast
    ring

theorem roundInv_hand_invariants (order : List Nat) (S0 base : Int) (st : RoundState)
    (hInv : RoundInv order S0 base st) : HandInvariants order S0 st := by
  refine ⟨?_, hInv.betsLeContrib, hInv.foldedSub⟩
  have h1 : sum_over order (fun s => st.stackOf s + st.contribs s) =
      sum_over order (fun _ => S0) :=
    sum_over_congr _ _ _ (fun s hs => hInv.conserve s hs)
  rw [sum_over_add, sum_over_const] at h1
  exact h1

theorem streetInv_hand_invariants (order : List Nat) (S0 base : Int) (st : RoundState)
    (hInv : StreetInv order S0 base st) : HandInvariants order S0 st := by
  refine ⟨?_, hInv.betsLeContrib, hInv.foldedSub⟩
  have h1 : sum_over order (fun s => st.stackOf s + st.contribs s) =
      sum_over order (fun _ => S0) :=
    sum_over_congr _ _ _ (fun s hs => hInv.conserve s hs)
  rw [sum_over_add, sum_over_const] at h1
  exact h1

/-! ### The termination measure of the betting loop -/

/-- The loop shrinks this measure every iteration: a bet or raise
strictly increases `current_bet` (bounded by `S0 - base`), every other
action removes the acting seat from `pending`. -/
def round_measure (order : List Nat) (S0 : Int) (st : RoundState) : Nat :=
  (S0 + 1 - st.currentBet).toNat * (order.length + 2) + st.pending.card

/-- Fuel sufficient for any betting round of the game. -/
def big_fuel (order : List Nat) (S0 : Int) : Nat :=
  (S0 + 1).toNat * (order.length + 2) + order.length + 1

/-- One full iteration of the betting loop at a pending seat `cur`: the
loop invariant is preserved, the seat handed to the next iteration is
pending, a short-circuit winner is an active seat (and the hand
invariants hold in that final state), and the termination measure
strictly decreases. -/
theorem step_round_spec (acts : Nat → RawAction) (order : List Nat) (S0 base : Int)
    (st : RoundState) (cur : Nat) (hnd : order.Nodup)
    (hInv : RoundInv order S0 base st) (hcur : cur ∈ st.pending) :
    match step_round acts order st cur with
    | .next st2 s2 => RoundInv order S0 base st2 ∧
        (st2.pending ≠ ∅ → s2 ≠ none) ∧ (∀ s, s2 = some s → s ∈ st2.pending) ∧
        round_measure order S0 st2 < round_measure order S0 st
    | .winner st2 w => w ∈ order ∧ HandInvariants order S0 st2
    | .over st2 => RoundInv order S0 base st2 ∧ st2.pending = ∅ := by
  have hco : cur ∈ order := (hInv.pendLive cur hcur).1
  have hInv2 : RoundInv order S0 base { st with calls := st.calls + 1 } :=
    ⟨hInv.conserve, hInv.stacksNN, hInv.betsNN, hInv.betsLeCB, hInv.betsLeContrib,
      hInv.liveBase, hInv.contribLe, hInv.baseCBLe, hInv.baseNN, hInv.cbNN,
      hInv.notPendingMatched, hInv.pendLive, hInv.foldedSub, hInv.liveGe2⟩
  have hcard : 0 < st.pending.card := Finset.card_pos.mpr ⟨cur, hcur⟩
  unfold step_round
  rw [if_neg (not_not_intro hcur)]
  rcases normalize_action_cases (acts st.calls) (st.currentBet - st.bets cur)
      st.currentBet (min_raise_to st.currentBet st.minRaise) (st.stackOf cur)
      (st.bets cur) with ⟨heq, hp⟩ | ⟨heq, hp⟩ | ⟨heq, hp⟩ |
      ⟨a, amt, heq, ha, hal, hgt, hle, hmin⟩
  · rw [heq]
    have hstep :
        (match step_apply order { st with calls := st.calls + 1 } cur (pfold, 0) with
         | .winner st2 w => w ∈ order ∧ st2.stackOf = st.stackOf ∧ st2.bets = st.bets ∧
             st2.contribs = st.contribs ∧ st2.folded = insert cur st.folded
         | .next st2 s2 => RoundInv order S0 base st2 ∧
             st2.pending = st.pending.erase cur ∧ st2.currentBet = st.currentBet ∧
             (st2.pending ≠ ∅ → s2 ≠ none) ∧ (∀ s, s2 = some s → s ∈ st2.pending)
         | .over _ => False) :=
      step_fold_spec order S0 base { st with calls := st.calls + 1 } cur 0 hnd hInv2 hcur
    cases hout : step_apply order { st with calls := st.calls + 1 } cur (pfold, 0) with
    | next st2 s2 =>
      rw [hout] at hstep
      obtain ⟨hI2, hpe2, hcb2, hn2, hm2⟩ := hstep
      refine ⟨hI2, hn2, hm2, ?_⟩
      unfold round_measure
      rw [hpe2, hcb2, Finset.card_erase_of_mem hcur]
      omega
    | winner st2 w =>
      rw [hout] at hstep
      obtain ⟨hw, h1, h2, h3, h4⟩ := hstep
      refine ⟨hw, ?_, ?_, ?_⟩
      · rw [h1, h3]
        exact (roundInv_hand_invariants order S0 base st hInv).1
      · intro s hs
        rw [h2, h3]
        exact hInv.betsLeContrib s hs
      · intro s hs
        rw [h4] at hs
        rcases Finset.mem_insert.mp hs with h | h
        · exact h ▸ hco
        · exact hInv.foldedSub s h
    | over st2 =>
      rw [hout] at hstep
      exact hstep.elim
  · rw [heq]
    have hstep :
        (match step_apply order { st with calls := st.calls + 1 } cur (pcheck, 0) with
         | .winner _ _ => False
         | .next st2 s2 => RoundInv order S0 base st2 ∧
             st2.pending = st.pending.erase cur ∧ st2.currentBet = st.currentBet ∧
             (st2.pending ≠ ∅ → s2 ≠ none) ∧ (∀ s, s2 = some s → s ∈ st2.pending)
         | .over st2 => RoundInv order S0 base st2 ∧ st2.pending = ∅) :=
      step_check_spec order S0 base { st with calls := st.calls + 1 } cur 0 hnd hInv2
        hcur hp
    cases hout : step_apply order { st with calls := st.calls + 1 } cur (pcheck, 0) with
    | next st2 s2 =>
      rw [hout] at hstep
      obtain ⟨hI2, hpe2, hcb2, hn2, hm2⟩ := hstep
      refine ⟨hI2, hn2, hm2, ?_⟩
      unfold round_measure
      rw [hpe2, hcb2, Finset.card_erase_of_mem hcur]
      omega
    | winner st2 w =>
      rw [hout] at hstep
      exact hstep.elim
    | over st2 =>
      rw [hout] at hstep
      exact hstep
  · rw [heq]
    have hstep :
        (match step_apply order { st with calls := st.calls + 1 } cur
            (pcall, min (st.currentBet - st.bets cur) (st.stackOf cur)) with
         | .winner _ _ => False
         | .next st2 s2 => RoundInv order S0 base st2 ∧
             st2.pending = st.pending.erase cur ∧ st2.currentBet = st.currentBet ∧
             (st2.pending ≠ ∅ → s2 ≠ none) ∧ (∀ s, s2 = some s → s ∈ st2.pending)
         | .over st2 => RoundInv order S0 base st2 ∧ st2.pending = ∅) :=
      step_call_spec order S0 base { st with calls := st.calls + 1 } cur hnd hInv2
        hcur hp
    cases hout : step_apply order { st with calls := st.calls + 1 } cur
        (pcall, min (st.currentBet - st.bets cur) (st.stackOf cur)) with
    | next st2 s2 =>
      rw [hout] at hstep
      obtain ⟨hI2, hpe2, hcb2, hn2, hm2⟩ := hstep
      refine ⟨hI2, hn2, hm2, ?_⟩
      unfold round_measure
      rw [hpe2, hcb2, Finset.card_erase_of_mem hcur]
      omega
    | winner st2 w =>
      rw [hout] at hstep
      exact hstep.elim
    | over st2 =>
      rw [hout] at hstep
      exact hstep
  · rw [heq]
    have hstep :
        (match step_apply order { st with calls := st.calls + 1 } cur (a, amt) with
         | .winner _ _ => False
         | .next st2 s2 => RoundInv order S0 base st2 ∧
             st.currentBet < st2.currentBet ∧ st2.currentBet + base ≤ S0 ∧
             (st2.pending ≠ ∅ → s2 ≠ none) ∧ (∀ s, s2 = some s → s ∈ st2.pending)
         | .over st2 => RoundInv order S0 base st2 ∧ st2.pending = ∅) :=
      step_bet_spec order S0 base { st with calls := st.calls + 1 } cur a amt hnd hInv2
        hcur ha hgt hle
    cases hout : step_apply order { st with calls := st.calls + 1 } cur (a, amt) with
    | next st2 s2 =>
      rw [hout] at hstep
      obtain ⟨hI2, hlt, hble, hn2, hm2⟩ := hstep
      refine ⟨hI2, hn2, hm2, ?_⟩
      have hsub : st2.pending ⊆ order.toFinset := fun s hs =>
        List.mem_toFinset.mpr (hI2.pendLive s hs).1
      have hcard2 : st2.pending.card ≤ order.length :=
        le_trans (Finset.card_le_card hsub) (List.toFinset_card_le order)
      have hA : (S0 + 1 - st2.currentBet).toNat + 1 ≤ (S0 + 1 - st.currentBet).toNat := by
        have hb := hInv.baseNN
        omega
      have hmul := Nat.mul_le_mul_right (order.length + 2) hA
      rw [Nat.succ_mul] at hmul
      unfold round_measure
      omega
    | winner st2 w =>
      rw [hout] at hstep
      exact hstep.elim
    | over st2 =>
      rw [hout] at hstep
      exact hstep


/-- The betting loop (`run_round`) preserves the invariant: if it exits
normally the final state satisfies the loop invariant with `pending`
empty, and if a fold left one live seat that winner is an active
seat. -/
theorem run_round_inv (acts : Nat → RawAction) (order : List Nat) (S0 base : Int)
    (hnd : order.Nodup) :
    ∀ (fuel : Nat) (st : RoundState) (seatO : Option Nat),
    RoundInv order S0 base st →
    (st.pending ≠ ∅ → seatO ≠ none) →
    (∀ s, seatO = some s → s ∈ st.pending) →
    match run_round acts order fuel st seatO with
    | none => True
    | some (st2, none) => RoundInv order S0 base st2 ∧ st2.pending = ∅
    | some (st2, some w) => w ∈ order := by
  intro fuel
  induction fuel with
  | zero =>
    intro st seatO hInv hne hmem
    simp [run_round]
  | succ n ih =>
    intro st seatO hInv hne hmem
    by_cases hpe : st.pending = ∅
    · have hr : run_round acts order (n + 1) st seatO = some (st, none) := by
        simp [run_round, hpe]
      rw [hr]
      exact ⟨hInv, hpe⟩
    · cases seatO with
      | none => exact absurd rfl (hne hpe)
      | some cur =>
        have hcur : cur ∈ st.pending := hmem cur rfl
        have hstep := step_round_spec acts order S0 base st cur hnd hInv hcur
        cases hout : step_round acts order st cur with
        | next st2 s2 =>
          have hr : run_round acts order (n + 1) st (some cur) =
              run_round acts order n st2 s2 := by
            simp [run_round, hpe, hout]
          rw [hr]
          rw [hout] at hstep
          obtain ⟨hI2, hn2, hm2, _⟩ := hstep
          exact ih st2 s2 hI2 hn2 hm2
        | winner st2 w =>
          have hr : run_round acts order (n + 1) st (some cur) =
              some (st2, some w) := by
            simp [run_round, hpe, hout]
          rw [hr]
          rw [hout] at hstep
          exact hstep.1
        | over st2 =>
          have hr : run_round acts order (n + 1) st (some cur) =
              some (st2, none) := by
            simp [run_round, hpe, hout]
          rw [hr]
          rw [hout] at hstep
          exact hstep

/-- The betting loop terminates: with fuel above the measure it always
reaches a loop exit. -/
theorem run_round_terminates (acts : Nat → RawAction) (order : List Nat)
    (S0 base : Int) (hnd : order.Nodup) :
    ∀ (fuel : Nat) (st : RoundState) (seatO : Option Nat),
    RoundInv order S0 base st →
    (st.pending ≠ ∅ → seatO ≠ none) →
    (∀ s, seatO = some s → s ∈ st.pending) →
    round_measure order S0 st < fuel →
    (run_round acts order fuel st seatO).isSome = true := by
  intro fuel
  induction fuel with
  | zero =>
    intro st seatO hInv hne hmem hlt
    exact absurd hlt (by omega)
  | succ n ih =>
    intro st seatO hInv hne hmem hlt
    by_cases hpe : st.pending = ∅
    · have hr : run_round acts order (n + 1) st seatO = some (st, none) := by
        simp [run_round, hpe]
      rw [hr]
      rfl
    · cases seatO with
      | none => exact absurd rfl (hne hpe)
      | some cur =>
        have hcur : cur ∈ st.pending := hmem cur rfl
        have hstep := step_round_spec acts order S0 base st cur hnd hInv hcur
        cases hout : step_round acts order st cur with
        | next st2 s2 =>
          have hr : run_round acts order (n + 1) st (some cur) =
              run_round acts order n st2 s2 := by
            simp [run_round, hpe, hout]
          rw [hr]
          rw [hout] at hstep
          obtain ⟨hI2, hn2, hm2, hmeas⟩ := hstep
          exact ih st2 s2 hI2 hn2 hm2 (by omega)
        | winner st2 w =>
          have hr : run_round acts order (n + 1) st (some cur) =
              some (st2, some w) := by
            simp [run_round, hpe, hout]
          rw [hr]
          rfl
        | over st2 =>
          have hr : run_round acts order (n + 1) st (some cur) =
              some (st2, none) := by
            simp [run_round, hpe, hout]
          rw [hr]
          rfl

/-- Entering a betting round from a between-street state preserves the
invariant through the whole round. -/
theorem run_betting_round_inv (acts : Nat → RawAction) (order : List Nat)
    (S0 base : Int) (fuel : Nat) (st0 : RoundState) (startSeat : Nat)
    (hnd : order.Nodup) (hInv : StreetInv order S0 base st0) :
    match run_betting_round acts order fuel st0 startSeat with
    | none => True
    | some (st2, none) => RoundInv order S0 base st2 ∧ st2.pending = ∅
    | some (st2, some w) => w ∈ order := by
  unfold run_betting_round
  simp only []
  have hRI := street_to_round order S0 base st0 hInv
  by_cases hpe : round_pending order st0.folded st0.stackOf = ∅
  · rw [if_pos hpe]
    exact ⟨hRI, hpe⟩
  · rw [if_neg hpe]
    refine run_round_inv acts order S0 base hnd fuel _ _ hRI ?_ ?_
    · intro _
      by_cases hm : startSeat ∈ round_pending order st0.folded st0.stackOf
      · rw [if_pos hm]
        exact Option.some_ne_none startSeat
      · rw [if_neg hm]
        obtain ⟨s, hs⟩ := next_pending_some startSeat order _ hpe
          (fun s hs => ((round_pending_mem order st0.folded st0.stackOf s).mp hs).1)
        rw [hs]
        exact Option.some_ne_none s
    · intro s hs
      by_cases hm : startSeat ∈ round_pending order st0.folded st0.stackOf
      · rw [if_pos hm] at hs
        cases hs
        exact hm
      · rw [if_neg hm] at hs
        exact next_pending_mem hs

/-- With `big_fuel` the whole betting round returns. -/
theorem run_betting_round_terminates (acts : Nat → RawAction) (order : List Nat)
    (S0 base : Int) (st0 : RoundState) (startSeat : Nat)
    (hnd : order.Nodup) (hInv : StreetInv order S0 base st0) :
    (run_betting_round acts order (big_fuel order S0) st0 startSeat).isSome = true := by
  unfold run_betting_round
  simp only []
  have hRI := street_to_round order S0 base st0 hInv
  by_cases hpe : round_pending order st0.folded st0.stackOf = ∅
  · rw [if_pos hpe]
    rfl
  · rw [if_neg hpe]
    have hmeas : round_measure order S0
        { st0 with pending := round_pending order st0.folded st0.stackOf } <
        big_fuel order S0 := by
      unfold round_measure big_fuel
      have hsub : round_pending order st0.folded st0.stackOf ⊆ order.toFinset :=
        fun s hs =>
          List.mem_toFinset.mpr ((round_pending_mem order st0.folded st0.stackOf s).mp hs).1
      have hcard : (round_pending order st0.folded st0.stackOf).card ≤ order.length :=
        le_trans (Finset.card_le_card hsub) (List.toFinset_card_le order)
      have hA : (S0 + 1 - st0.currentBet).toNat ≤ (S0 + 1).toNat := by
        have := hInv.cbNN
        omega
      have hmul := Nat.mul_le_mul_right (order.length + 2) hA
      show (S0 + 1 - st0.currentBet).toNat * (order.length + 2) +
        (round_pending order st0.folded st0.stackOf).card <
        (S0 + 1).toNat * (order.length + 2) + order.length + 1
      omega
    refine run_round_terminates acts order S0 base hnd _ _ _ hRI ?_ ?_ hmeas
    · intro _
      by_cases hm : startSeat ∈ round_pending order st0.folded st0.stackOf
      · rw [if_pos hm]
        exact Option.some_ne_none startSeat
      · rw [if_neg hm]
        obtain ⟨s, hs⟩ := next_pending_some startSeat order _ hpe
          (fun s hs => ((round_pending_mem order st0.folded st0.stackOf s).mp hs).1)
        rw [hs]
        exact Option.some_ne_none s
    · intro s hs
      by_cases hm : startSeat ∈ round_pending order st0.folded st0.stackOf
      · rw [if_pos hm] at hs
        cases hs
        exact hm
      · rw [if_neg hm] at hs
        exact next_pending_mem hs

/-- After a betting round ends with `pending` empty, resetting the
per-street state gives the street invariant at the larger base
`base + current_bet`. -/
theorem round_end_to_street (order : List Nat) (S0 base bb : Int) (st : RoundState)
    (hInv : RoundInv order S0 base st) (hpe : st.pending = ∅) :
    StreetInv order S0 (base + st.currentBet) (reset_street st bb) := by
  refine ⟨hInv.conserve, hInv.stacksNN, ?_, ?_, ?_, ?_, ?_, ?_, ?_, ?_,
    hInv.foldedSub, hInv.liveGe2⟩
  · intro s hs
    exact le_refl 0
  · intro s hs
    exact le_refl 0
  · intro s hs
    show (0 : Int) ≤ st.contribs s
    have h1 := hInv.betsNN s hs
    have h2 := hInv.betsLeContrib s hs
    omega
  · intro s hs hsf hss
    show st.contribs s = base + st.currentBet + 0
    have h1 := hInv.liveBase s hs hsf hss
    have h2 := hInv.notPendingMatched s hs hsf hss (by
      rw [hpe]
      exact Finset.not_mem_empty s)
    omega
  · intro s hs
    show st.contribs s ≤ base + st.currentBet + 0
    have := hInv.contribLe s hs
    omega
  · show base + st.currentBet + 0 ≤ S0
    have := hInv.baseCBLe
    omega
  · show (0 : Int) ≤ base + st.currentBet
    have h1 := hInv.baseNN
    have h2 := hInv.cbNN
    omega
  · exact le_refl 0


/-! ### The payout loop distributes exactly the contributions -/

/-- The level loop of `_calculate_payouts`, summed over the active
seats: provided the remaining levels are strictly ascending, above
`prev`, realized by some contribution, and cover every contribution
above `prev`, and provided a maximal contributor sits at showdown, the
loop adds exactly the chips contributed above `prev`. -/
theorem calc_payouts_level_sum (contribs : Nat → Int) (order ranksKeys : List Nat)
    (ranks : Nat → Nat × List Nat) (hnd : order.Nodup)
    (hrk : ∀ s ∈ ranksKeys, s ∈ order) (m : Nat) (hm : m ∈ ranksKeys)
    (hmax : ∀ t ∈ order, contribs t ≤ contribs m) :
    ∀ (ls : List Int) (prev : Int) (p : Nat → Int),
    List.Pairwise (fun a b => a < b) ls →
    (∀ L ∈ ls, prev < L) →
    (∀ L ∈ ls, ∃ t ∈ order, contribs t = L) →
    (∀ t ∈ order, contribs t ≤ prev ∨ contribs t ∈ ls) →
    sum_over order (calc_payouts_level contribs order ranksKeys ranks order ls prev p) =
      sum_over order p + sum_over order (fun s => max (contribs s - prev) 0) := by
  intro ls
  induction ls with
  | nil =>
    intro prev p hpw hall hvals hcov
    simp only [calc_payouts_level]
    have h0 : sum_over order (fun s => max (contribs s - prev) 0) =
        sum_over order (fun _ => 0) := by
      apply sum_over_congr
      intro s hs
      rcases hcov s hs with h | h
      · omega
      · simp at h
    rw [h0, sum_over_zero]
    ring
  | cons L rest ih =>
    intro prev p hpw hall hvals hcov
    have hLp : prev < L := hall L (List.mem_cons_self L rest)
    have hrestlt : ∀ L2 ∈ rest, L < L2 := (List.pairwise_cons.mp hpw).1
    have hpwr := (List.pairwise_cons.mp hpw).2
    obtain ⟨t0, ht0o, ht0c⟩ := hvals L (List.mem_cons_self L rest)
    have ht0f : t0 ∈ order.filter (fun s => L ≤ contribs s) :=
      List.mem_filter.mpr ⟨ht0o, by simp [ht0c]⟩
    have hinv_ne : order.filter (fun s => L ≤ contribs s) ≠ [] :=
      List.ne_nil_of_mem ht0f
    have hmo := hrk m hm
    have hmL : L ≤ contribs m := ht0c ▸ hmax t0 ht0o
    have hm_inv : m ∈ order.filter (fun s => L ≤ contribs s) :=
      List.mem_filter.mpr ⟨hmo, by simp [hmL]⟩
    have hm_el : m ∈ (order.filter (fun s => L ≤ contribs s)).filter
        (fun s => s ∈ ranksKeys) :=
      List.mem_filter.mpr ⟨hm_inv, by simp [hm]⟩
    have hel_ne : (order.filter (fun s => L ≤ contribs s)).filter
        (fun s => s ∈ ranksKeys) ≠ [] := List.ne_nil_of_mem hm_el
    have hmapne : (((order.filter (fun s => L ≤ contribs s)).filter
        (fun s => s ∈ ranksKeys)).map ranks) ≠ [] := by
      intro h
      exact hel_ne (List.map_eq_nil_iff.mp h)
    have hbest := pymax_rank_mem _ hmapne
    obtain ⟨w0, hw0E, hw0r⟩ := List.mem_map.mp hbest
    have hw0W : w0 ∈ ((order.filter (fun s => L ≤ contribs s)).filter
        (fun s => s ∈ ranksKeys)).filter (fun s => ranks s =
          pymax_rank ((((order.filter (fun s => L ≤ contribs s)).filter
            (fun s => s ∈ ranksKeys)).map ranks))) :=
      List.mem_filter.mpr ⟨hw0E, by simp [hw0r]⟩
    have hWne : ((order.filter (fun s => L ≤ contribs s)).filter
        (fun s => s ∈ ranksKeys)).filter (fun s => ranks s =
          pymax_rank ((((order.filter (fun s => L ≤ contribs s)).filter
            (fun s => s ∈ ranksKeys)).map ranks))) ≠ [] :=
      List.ne_nil_of_mem hw0W
    have hWsub : ∀ w ∈ ((order.filter (fun s => L ≤ contribs s)).filter
        (fun s => s ∈ ranksKeys)).filter (fun s => ranks s =
          pymax_rank ((((order.filter (fun s => L ≤ contribs s)).filter
            (fun s => s ∈ ranksKeys)).map ranks))), w ∈ order := by
      intro w hw
      have h1 := (List.mem_filter.mp hw).1
      have h2 := (List.mem_filter.mp h1).1
      exact (List.mem_filter.mp h2).1
    have hall2 : ∀ L2 ∈ rest, L < L2 := hrestlt
    have hvals2 : ∀ L2 ∈ rest, ∃ t ∈ order, contribs t = L2 :=
      fun L2 h => hvals L2 (List.mem_cons_of_mem L h)
    have hcov2 : ∀ t ∈ order, contribs t ≤ L ∨ contribs t ∈ rest := by
      intro t ht
      rcases hcov t ht with h | h
      · exact Or.inl (by omega)
      · rcases List.mem_cons.mp h with h2 | h2
        · exact Or.inl (by omega)
        · exact Or.inr h2
    simp only [calc_payouts_level]
    rw [if_neg (not_le.mpr hLp), if_neg hinv_ne, if_neg hel_ne]
    rw [ih L _ hpwr hall2 hvals2 hcov2]
    have hperm := List.perm_insertionSort (fun a b =>
      order.findIdx (fun x => decide (x = a)) ≤ order.findIdx (fun x => decide (x = b)))
      (((order.filter (fun s => L ≤ contribs s)).filter
        (fun s => s ∈ ranksKeys)).filter (fun s => ranks s =
          pymax_rank ((((order.filter (fun s => L ≤ contribs s)).filter
            (fun s => s ∈ ranksKeys)).map ranks))))
    have hwone : (((order.filter (fun s => L ≤ contribs s)).filter
        (fun s => s ∈ ranksKeys)).filter (fun s => ranks s =
          pymax_rank ((((order.filter (fun s => L ≤ contribs s)).filter
            (fun s => s ∈ ranksKeys)).map ranks)))).insertionSort (fun a b =>
      order.findIdx (fun x => decide (x = a)) ≤ order.findIdx (fun x => decide (x = b)))
        ≠ [] := by
      intro h
      rw [h] at hperm
      exact hWne (List.Perm.eq_nil hperm.symm)
    have hwosub : ∀ w ∈ (((order.filter (fun s => L ≤ contribs s)).filter
        (fun s => s ∈ ranksKeys)).filter (fun s => ranks s =
          pymax_rank ((((order.filter (fun s => L ≤ contribs s)).filter
            (fun s => s ∈ ranksKeys)).map ranks)))).insertionSort (fun a b =>
      order.findIdx (fun x => decide (x = a)) ≤ order.findIdx (fun x => decide (x = b))),
        w ∈ order :=
      fun w hw => hWsub w (hperm.mem_iff.mp hw)
    rw [sum_over_remainder order hnd _ hwone hwosub]
    rw [sum_over_foldl_upd order hnd _ _ p hWsub]
    have hWpos : 0 < (((order.filter (fun s => L ≤ contribs s)).filter
        (fun s => s ∈ ranksKeys)).filter (fun s => ranks s =
          pymax_rank ((((order.filter (fun s => L ≤ contribs s)).filter
            (fun s => s ∈ ranksKeys)).map ranks)))).length := List.length_pos.mpr hWne
    have hcne : ((((((order.filter (fun s => L ≤ contribs s)).filter
        (fun s => s ∈ ranksKeys)).filter (fun s => ranks s =
          pymax_rank ((((order.filter (fun s => L ≤ contribs s)).filter
            (fun s => s ∈ ranksKeys)).map ranks)))).length : Nat)) : Int) ≠ 0 := by
      exact_mod_cast Nat.pos_iff_ne_zero.mp hWpos
    have hdm2 : Int.ediv ((L - prev) *
        ((order.filter (fun s => L ≤ contribs s)).length : Int))
        (((((order.filter (fun s => L ≤ contribs s)).filter
          (fun s => s ∈ ranksKeys)).filter (fun s => ranks s =
            pymax_rank ((((order.filter (fun s => L ≤ contribs s)).filter
              (fun s => s ∈ ranksKeys)).map ranks)))).length : Int)) *
        (((((order.filter (fun s => L ≤ contribs s)).filter
          (fun s => s ∈ ranksKeys)).filter (fun s => ranks s =
            pymax_rank ((((order.filter (fun s => L ≤ contribs s)).filter
              (fun s => s ∈ ranksKeys)).map ranks)))).length : Int)) +
        Int.emod ((L - prev) *
          ((order.filter (fun s => L ≤ contribs s)).length : Int))
        (((((order.filter (fun s => L ≤ contribs s)).filter
          (fun s => s ∈ ranksKeys)).filter (fun s => ranks s =
            pymax_rank ((((order.filter (fun s => L ≤ contribs s)).filter
              (fun s => s ∈ ranksKeys)).map ranks)))).length : Int)) =
        (L - prev) * ((order.filter (fun s => L ≤ contribs s)).length : Int) := by
      rw [mul_comm]
      exact Int.ediv_add_emod _ _
    have hremnn : 0 ≤ Int.emod ((L - prev) *
        ((order.filter (fun s => L ≤ contribs s)).length : Int))
        (((((order.filter (fun s => L ≤ contribs s)).filter
          (fun s => s ∈ ranksKeys)).filter (fun s => ranks s =
            pymax_rank ((((order.filter (fun s => L ≤ contribs s)).filter
              (fun s => s ∈ ranksKeys)).map ranks)))).length : Int)) :=
      Int.emod_nonneg _ hcne
    have htn := Int.toNat_of_nonneg hremnn
    have hkey : sum_over order (fun s => max (contribs s - prev) 0) =
        sum_over order (fun s => max (contribs s - L) 0) +
          (L - prev) * ((order.filter (fun s => L ≤ contribs s)).length : Int) := by
      have hpt : ∀ s ∈ order, max (contribs s - prev) 0 =
          max (contribs s - L) 0 + (if L ≤ contribs s then L - prev else 0) := by
        intro s hs
        by_cases hLs : L ≤ contribs s
        · rw [if_pos hLs]
          omega
        · rw [if_neg hLs]
          have hsp : contribs s ≤ prev := by
            rcases hcov s hs with h | h
            · exact h
            · rcases List.mem_cons.mp h with h2 | h2
              · omega
              · have := hrestlt _ h2
                omega
          omega
      rw [sum_over_congr _ _ _ hpt, sum_over_add, sum_over_slice]
    rw [hkey]
    linarith [hdm2, htn]

/-- `_calculate_payouts` pays out exactly the sum of the contributions
when the contributions are non-negative and some showdown seat is a
maximal contributor. -/
theorem calculate_payouts_sum (contribs : Nat → Int) (order ranksKeys : List Nat)
    (ranks : Nat → Nat × List Nat) (hnd : order.Nodup)
    (hrk : ∀ s ∈ ranksKeys, s ∈ order) (m : Nat) (hm : m ∈ ranksKeys)
    (hmax : ∀ t ∈ order, contribs t ≤ contribs m)
    (hnn : ∀ s ∈ order, 0 ≤ contribs s) :
    sum_over order (calculate_payouts contribs order ranksKeys ranks order) =
      sum_over order contribs := by
  unfold calculate_payouts
  simp only []
  have hperm := List.perm_insertionSort (fun a b : Int => a ≤ b)
    (((order.map contribs).filter (fun a => 0 < a)).dedup)
  have hmemlv : ∀ L : Int, L ∈ (((order.map contribs).filter (fun a => 0 < a)).dedup).insertionSort
      (fun a b => a ≤ b) ↔ (0 < L ∧ L ∈ order.map contribs) := by
    intro L
    rw [hperm.mem_iff, List.mem_dedup, List.mem_filter]
    simp [and_comm]
  have hsorted : ((((order.map contribs).filter (fun a => 0 < a)).dedup).insertionSort
      (fun a b => a ≤ b)).Sorted (fun a b : Int => a ≤ b) :=
    List.sorted_insertionSort _ _
  have hnodup : ((((order.map contribs).filter (fun a => 0 < a)).dedup).insertionSort
      (fun a b => a ≤ b)).Nodup :=
    hperm.nodup_iff.mpr (List.nodup_dedup _)
  have hpair : List.Pairwise (fun a b : Int => a < b)
      ((((order.map contribs).filter (fun a => 0 < a)).dedup).insertionSort
        (fun a b => a ≤ b)) :=
    List.Sorted.lt_of_le hsorted hnodup
  rw [calc_payouts_level_sum contribs order ranksKeys ranks hnd hrk m hm hmax _ 0
    (fun _ => 0) hpair
    (fun L hL => ((hmemlv L).mp hL).1)
    (fun L hL => by
      obtain ⟨hpos, hmem⟩ := (hmemlv L).mp hL
      obtain ⟨t, ht, htc⟩ := List.mem_map.mp hmem
      exact ⟨t, ht, htc⟩)
    (fun t ht => by
      by_cases hpos : 0 < contribs t
      · exact Or.inr ((hmemlv (contribs t)).mpr ⟨hpos, List.mem_map_of_mem contribs ht⟩)
      · exact Or.inl (by omega))]
  rw [sum_over_zero]
  have h0 : sum_over order (fun s => max (contribs s - 0) 0) =
      sum_over order contribs := by
    apply sum_over_congr
    intro s hs
    have := hnn s hs
    omega
  rw [h0]
  ring

/-- The folded-winner deltas sum to zero over the active seats. -/
theorem mk_folded_sum (order : List Nat) (st : RoundState) (w : Nat)
    (hnd : order.Nodup) (hw : w ∈ order) :
    sum_over order (mk_folded_result order st w).deltas = 0 := by
  show sum_over order (fun s =>
    upd (fun _ => 0) w ((order.map st.contribs).sum) s - st.contribs s) = 0
  rw [sum_over_sub]
  have h2 := sum_over_upd order hnd (fun _ => 0) w hw ((order.map st.contribs).sum)
  rw [sum_over_zero] at h2
  simp only [zero_add] at h2
  rw [h2]
  show (order.map st.contribs).sum - sum_over order st.contribs = 0
  unfold sum_over
  ring

/-- The showdown deltas sum to zero over the active seats when the
betting ended with the loop invariant and no pending seat. -/
theorem mk_showdown_sum (order : List Nat) (S0 base : Int) (st : RoundState)
    (hole : Nat → List CardE) (board : List CardE) (hnd : order.Nodup)
    (hInv : RoundInv order S0 base st) (hpe : st.pending = ∅) :
    sum_over order (mk_showdown_result order st hole board).deltas = 0 := by
  obtain ⟨m, hm, hmax⟩ := max_live_contrib order S0 base st hInv hpe
  have hnn : ∀ s ∈ order, 0 ≤ st.contribs s := fun s hs =>
    le_trans (hInv.betsNN s hs) (hInv.betsLeContrib s hs)
  show sum_over order (fun s =>
    calculate_payouts st.contribs order (live_seats order st.folded)
      (fun s => evaluate_best_hand (hole s ++ board)) order s - st.contribs s) = 0
  rw [sum_over_sub]
  rw [calculate_payouts_sum st.contribs order (live_seats order st.folded)
    (fun s => evaluate_best_hand (hole s ++ board)) hnd
    (fun s hs => (live_seats_sub hs).1) m hm hmax hnn]
  ring


/-! ### Blind posting sets up the street invariant -/

theorem findIdx_of_mem (l : List Nat) (b : Nat) (hb : b ∈ l) :
    ∃ i, l.findIdx? (fun s => decide (s = b)) = some i ∧ i < l.length ∧
      l.getD i 0 = b := by
  induction l with
  | nil => cases hb
  | cons a t ih =>
    by_cases hab : a = b
    · refine ⟨0, ?_, by simp, by simp [hab]⟩
      rw [List.findIdx?_cons]
      simp [hab]
    · have hbt : b ∈ t := by
        rcases List.mem_cons.mp hb with h | h
        · exact absurd h.symm hab
        · exact h
      obtain ⟨i, hfi, hlt, hget⟩ := ih hbt
      refine ⟨i + 1, ?_, by simpa using hlt, by simpa using hget⟩
      rw [List.findIdx?_cons]
      simp [hab, hfi]

/-- `_blind_positions`: the small and big blind are distinct active
seats. -/
theorem blind_positions_spec (ordered : List Nat) (hnd : ordered.Nodup)
    (h2 : 2 ≤ ordered.length) (button : Nat) (hb : button ∈ ordered) :
    (blind_positions ordered button).1 ∈ ordered ∧
    (blind_positions ordered button).2.1 ∈ ordered ∧
    (blind_positions ordered button).1 ≠ (blind_positions ordered button).2.1 := by
  obtain ⟨bi, hfi, hbilt, hbig⟩ := findIdx_of_mem ordered button hb
  unfold blind_positions
  rw [hfi]
  by_cases hl2 : ordered.length = 2
  · rw [if_pos hl2]
    match ordered, hl2 with
    | [x, y], _ =>
      have hxy : x ≠ y := by
        simp only [List.nodup_cons, List.mem_singleton] at hnd
        exact hnd.1
      rcases (by simpa using hb : button = x ∨ button = y) with rfl | rfl
      · have hbi0 : bi = 0 := by
          rw [List.findIdx?_cons] at hfi
          simp at hfi
          omega
        subst hbi0
        exact ⟨by simp, by simp, by simpa using hxy⟩
      · have hbi1 : bi = 1 := by
          simp [List.findIdx?_cons, hxy] at hfi
          omega
        subst hbi1
        exact ⟨by simp, by simp, by simpa using Ne.symm hxy⟩
  · rw [if_neg hl2]
    have hlen3 : 3 ≤ ordered.length := by omega
    have hlpos : 0 < ordered.length := by omega
    have hi1 : (bi + 1) % ordered.length < ordered.length := Nat.mod_lt _ hlpos
    have hi2 : (bi + 2) % ordered.length < ordered.length := Nat.mod_lt _ hlpos
    refine ⟨?_, ?_, ?_⟩
    · show ordered.getD ((bi + 1) % ordered.length) 0 ∈ ordered
      rw [List.getD_eq_getElem ordered 0 hi1]
      exact List.getElem_mem hi1
    · show ordered.getD ((bi + 2) % ordered.length) 0 ∈ ordered
      rw [List.getD_eq_getElem ordered 0 hi2]
      exact List.getElem_mem hi2
    · show ordered.getD ((bi + 1) % ordered.length) 0 ≠
        ordered.getD ((bi + 2) % ordered.length) 0
      rw [List.getD_eq_getElem ordered 0 hi1, List.getD_eq_getElem ordered 0 hi2]
      intro he
      have hieq : (bi + 1) % ordered.length = (bi + 2) % ordered.length :=
        (List.Nodup.getElem_inj_iff hnd).mp he
      have hdvd : ordered.length ∣ (bi + 2) - (bi + 1) :=
        (Nat.modEq_iff_dvd' (by omega)).mp hieq
      have : ordered.length ≤ 1 := Nat.le_of_dvd (by omega) (by simpa using hdvd)
      omega

/-- After the blinds are posted and `current_bet`/`min_raise` set, the
initial state of `play_hand` satisfies the street invariant with
`base = 0`. -/
theorem initial_street_inv (order : List Nat) (sbSeat bbSeat : Nat) (S0 sb bb : Int)
    (h2 : 2 ≤ order.length) (hsbo : sbSeat ∈ order) (hbbo : bbSeat ∈ order)
    (hneq : sbSeat ≠ bbSeat) (hS0 : 0 ≤ S0) (hsb : 0 ≤ sb) (hbb : sb ≤ bb) :
    StreetInv order S0 0
      { post_blind (post_blind
          { stackOf := fun _ => S0, bets := fun _ => 0, contribs := fun _ => 0,
            pot := 0, currentBet := 0, minRaise := 0,
            folded := ∅, pending := ∅, calls := 0 } sbSeat sb) bbSeat bb with
        currentBet := (post_blind (post_blind
          { stackOf := fun _ => S0, bets := fun _ => 0, contribs := fun _ => 0,
            pot := 0, currentBet := 0, minRaise := 0,
            folded := ∅, pending := ∅, calls := 0 } sbSeat sb) bbSeat bb).bets bbSeat,
        minRaise := bb } := by
  have hbs : upd (fun _ => S0) sbSeat (S0 - min sb S0) bbSeat = S0 :=
    upd_other _ _ _ _ (Ne.symm hneq)
  have hbb0 : upd (fun _ => 0) sbSeat (0 + min sb S0) bbSeat = 0 :=
    upd_other _ _ _ _ (Ne.symm hneq)
  have hstack : ∀ s, (post_blind (post_blind
      { stackOf := fun _ => S0, bets := fun _ => 0, contribs := fun _ => 0,
        pot := 0, currentBet := 0, minRaise := 0,
        folded := ∅, pending := ∅, calls := 0 } sbSeat sb) bbSeat bb).stackOf s =
      upd (upd (fun _ => S0) sbSeat (S0 - min sb S0)) bbSeat (S0 - min bb S0) s := by
    intro s
    show upd (upd (fun _ => S0) sbSeat (S0 - min sb S0)) bbSeat
      (upd (fun _ => S0) sbSeat (S0 - min sb S0) bbSeat -
        min bb (upd (fun _ => S0) sbSeat (S0 - min sb S0) bbSeat)) s = _
    rw [hbs]
  have hbets : ∀ s, (post_blind (post_blind
      { stackOf := fun _ => S0, bets := fun _ => 0, contribs := fun _ => 0,
        pot := 0, currentBet := 0, minRaise := 0,
        folded := ∅, pending := ∅, calls := 0 } sbSeat sb) bbSeat bb).bets s =
      upd (upd (fun _ => 0) sbSeat (0 + min sb S0)) bbSeat (0 + min bb S0) s := by
    intro s
    show upd (upd (fun _ => 0) sbSeat (0 + min sb S0)) bbSeat
      (upd (fun _ => 0) sbSeat (0 + min sb S0) bbSeat +
        min bb (upd (fun _ => S0) sbSeat (S0 - min sb S0) bbSeat)) s = _
    rw [hbs, hbb0]
  have hcontribs : ∀ s, (post_blind (post_blind
      { stackOf := fun _ => S0, bets := fun _ => 0, contribs := fun _ => 0,
        pot := 0, currentBet := 0, minRaise := 0,
        folded := ∅, pending := ∅, calls := 0 } sbSeat sb) bbSeat bb).contribs s =
      upd (upd (fun _ => 0) sbSeat (0 + min sb S0)) bbSeat (0 + min bb S0) s := by
    intro s
    show upd (upd (fun _ => 0) sbSeat (0 + min sb S0)) bbSeat
      (upd (fun _ => 0) sbSeat (0 + min sb S0) bbSeat +
        min bb (upd (fun _ => S0) sbSeat (S0 - min sb S0) bbSeat)) s = _
    rw [hbs, hbb0]
  have hcb : (post_blind (post_blind
      { stackOf := fun _ => S0, bets := fun _ => 0, contribs := fun _ => 0,
        pot := 0, currentBet := 0, minRaise := 0,
        folded := ∅, pending := ∅, calls := 0 } sbSeat sb) bbSeat bb).bets bbSeat =
      0 + min bb S0 := by
    rw [hbets bbSeat, upd_same]
  refine ⟨?_, ?_, ?_, ?_, ?_, ?_, ?_, ?_, le_refl 0, ?_, ?_, ?_⟩
  · intro s hs
    show (post_blind (post_blind _ sbSeat sb) bbSeat bb).stackOf s +
      (post_blind (post_blind _ sbSeat sb) bbSeat bb).contribs s = S0
    rw [hstack s, hcontribs s]
    by_cases h1 : s = bbSeat
    · subst h1
      rw [upd_same, upd_same]
      omega
    · rw [upd_other _ _ _ _ h1, upd_other _ _ _ _ h1]
      by_cases hsb2 : s = sbSeat
      · subst hsb2
        rw [upd_same, upd_same]
        omega
      · rw [upd_other _ _ _ _ hsb2, upd_other _ _ _ _ hsb2]
        show S0 + (0 : Int) = S0
        omega
  · intro s hs
    show (0 : Int) ≤ (post_blind (post_blind _ sbSeat sb) bbSeat bb).stackOf s
    rw [hstack s]
    by_cases h1 : s = bbSeat
    · subst h1
      rw [upd_same]
      omega
    · rw [upd_other _ _ _ _ h1]
      by_cases hsb2 : s = sbSeat
      · subst hsb2
        rw [upd_same]
        omega
      · rw [upd_other _ _ _ _ hsb2]
        show (0 : Int) ≤ S0
        omega
  · intro s hs
    show (0 : Int) ≤ (post_blind (post_blind _ sbSeat sb) bbSeat bb).bets s
    rw [hbets s]
    by_cases h1 : s = bbSeat
    · subst h1
      rw [upd_same]
      omega
    · rw [upd_other _ _ _ _ h1]
      by_cases hsb2 : s = sbSeat
      · subst hsb2
        rw [upd_same]
        omega
      · rw [upd_other _ _ _ _ hsb2]
  · intro s hs
    show (post_blind (post_blind _ sbSeat sb) bbSeat bb).bets s ≤
      (post_blind (post_blind _ sbSeat sb) bbSeat bb).bets bbSeat
    rw [hcb, hbets s]
    by_cases h1 : s = bbSeat
    · subst h1
      rw [upd_same]
    · rw [upd_other _ _ _ _ h1]
      by_cases hsb2 : s = sbSeat
      · subst hsb2
        rw [upd_same]
        omega
      · rw [upd_other _ _ _ _ hsb2]
        show (0 : Int) ≤ 0 + min bb S0
        omega
  · intro s hs
    show (post_blind (post_blind _ sbSeat sb) bbSeat bb).bets s ≤
      (post_blind (post_blind _ sbSeat sb) bbSeat bb).contribs s
    rw [hbets s, hcontribs s]
  · intro s hs hsf hss
    show (post_blind (post_blind _ sbSeat sb) bbSeat bb).contribs s =
      0 + (post_blind (post_blind _ sbSeat sb) bbSeat bb).bets s
    rw [hbets s, hcontribs s]
    omega
  · intro s hs
    show (post_blind (post_blind _ sbSeat sb) bbSeat bb).contribs s ≤
      0 + (post_blind (post_blind _ sbSeat sb) bbSeat bb).bets bbSeat
    rw [hcb, hcontribs s]
    by_cases h1 : s = bbSeat
    · subst h1
      rw [upd_same]
      omega
    · rw [upd_other _ _ _ _ h1]
      by_cases hsb2 : s = sbSeat
      · subst hsb2
        rw [upd_same]
        omega
      · rw [upd_other _ _ _ _ hsb2]
        show (0 : Int) ≤ 0 + (0 + min bb S0)
        omega
  · show 0 + (post_blind (post_blind _ sbSeat sb) bbSeat bb).bets bbSeat ≤ S0
    rw [hcb]
    omega
  · show (0 : Int) ≤ (post_blind (post_blind _ sbSeat sb) bbSeat bb).bets bbSeat
    rw [hcb]
    omega
  · intro s hs
    exact absurd hs (Finset.not_mem_empty s)
  · show 2 ≤ (live_seats order (∅ : Finset Nat)).length
    have heq : live_seats order (∅ : Finset Nat) = order := by
      unfold live_seats
      simp
    rw [heq]
    exact h2


/-! ### Dealing always succeeds on a large enough deck -/

theorem pop_card_some (deck : List CardE) (h : deck ≠ []) :
    ∃ c d, pop_card deck = some (c, d) ∧ d.length = deck.length - 1 := by
  unfold pop_card
  cases hl : deck.getLast? with
  | none => exact absurd (List.getLast?_eq_none_iff.mp hl) h
  | some c => exact ⟨c, deck.dropLast, rfl, by rw [List.length_dropLast]⟩

theorem deal_hole_some : ∀ (l : List Nat) (deck : List CardE) (f : Nat → List CardE),
    2 * l.length ≤ deck.length →
    ∃ g d, deal_hole l deck f = some (g, d) ∧
      d.length = deck.length - 2 * l.length := by
  intro l
  induction l with
  | nil =>
    intro deck f h
    exact ⟨f, deck, rfl, by simp⟩
  | cons a t ih =>
    intro deck f h
    simp only [List.length_cons] at h
    have h1 : deck ≠ [] := by
      intro he
      rw [he] at h
      simp at h
    obtain ⟨c1, d1, hp1, hl1⟩ := pop_card_some deck h1
    have h2 : d1 ≠ [] := by
      intro he
      rw [he] at hl1
      simp at hl1
      omega
    obtain ⟨c2, d2, hp2, hl2⟩ := pop_card_some d1 h2
    obtain ⟨g, d, hd, hld⟩ := ih d2 (fun s => if s = a then [c1, c2] else f s) (by omega)
    refine ⟨g, d, ?_, ?_⟩
    · have hstep : deal_hole (a :: t) deck f =
          deal_hole t d2 (fun s => if s = a then [c1, c2] else f s) := by
        simp [deal_hole, hp1, hp2]
      rw [hstep]
      exact hd
    · simp only [List.length_cons]
      omega

theorem deal_board_some : ∀ (n : Nat) (board deck : List CardE), n ≤ deck.length →
    ∃ b2 d2, deal_board n board deck = some (b2, d2) ∧
      d2.length = deck.length - n := by
  intro n
  induction n with
  | zero =>
    intro board deck h
    exact ⟨board, deck, rfl, by omega⟩
  | succ k ih =>
    intro board deck h
    have h1 : deck ≠ [] := by
      intro he
      rw [he] at h
      simp at h
    obtain ⟨c, d, hp, hl⟩ := pop_card_some deck h1
    obtain ⟨b2, d2, hd, hld⟩ := ih (board ++ [c]) d (by omega)
    refine ⟨b2, d2, ?_, by omega⟩
    have hstep : deal_board (k + 1) board deck = deal_board k (board ++ [c]) d := by
      simp [deal_board, hp]
    rw [hstep]
    exact hd

/-! ### The street loop of `play_hand` -/

/-- Every result `run_streets` produces has deltas summing to zero over
the active seats. -/
theorem run_streets_inv (acts : Nat → RawAction) (order : List Nat) (S0 : Int)
    (fuel : Nat) (hole : Nat → List CardE) (bb : Int) (postStart : Nat)
    (hnd : order.Nodup) :
    ∀ (streets : List Nat) (board deck : List CardE) (st : RoundState) (base : Int),
    RoundInv order S0 base st → st.pending = ∅ →
    match run_streets acts order fuel hole bb postStart streets board deck st with
    | none => True
    | some res => sum_over order res.deltas = 0 ∧ res.active_seats = order := by
  intro streets
  induction streets with
  | nil =>
    intro board deck st base hInv hpe
    have hr : run_streets acts order fuel hole bb postStart [] board deck st =
        some (mk_showdown_result order st hole board) := rfl
    rw [hr]
    exact ⟨mk_showdown_sum order S0 base st hole board hnd hInv hpe, rfl⟩
  | cons n rest ih =>
    intro board deck st base hInv hpe
    have hSt := round_end_to_street order S0 base bb st hInv hpe
    cases hdb : deal_board n board deck with
    | none =>
      have hr : run_streets acts order fuel hole bb postStart (n :: rest)
          board deck st = none := by
        simp [run_streets, hdb]
      rw [hr]
      trivial
    | some pr =>
      obtain ⟨b2, d2⟩ := pr
      have hrbr := run_betting_round_inv acts order S0 (base + st.currentBet) fuel
        (reset_street st bb) postStart hnd hSt
      cases hrun : run_betting_round acts order fuel (reset_street st bb) postStart with
      | none =>
        have hr : run_streets acts order fuel hole bb postStart (n :: rest)
            board deck st = none := by
          simp [run_streets, hdb, hrun]
        rw [hr]
        trivial
      | some pr2 =>
        obtain ⟨st2, wo⟩ := pr2
        rw [hrun] at hrbr
        cases wo with
        | some w =>
          have hw : w ∈ order := hrbr
          have hr : run_streets acts order fuel hole bb postStart (n :: rest)
              board deck st = some (mk_folded_result order st2 w) := by
            simp [run_streets, hdb, hrun]
          rw [hr]
          exact ⟨mk_folded_sum order st2 w hnd hw, rfl⟩
        | none =>
          have hrr : RoundInv order S0 (base + st.currentBet) st2 ∧
              st2.pending = ∅ := hrbr
          by_cases hna : no_actionable order st2.folded st2.stackOf = true
          · have hr : run_streets acts order fuel hole bb postStart (n :: rest)
                board deck st =
                some (mk_showdown_result order st2 hole (deal_remaining b2 d2)) := by
              simp [run_streets, hdb, hrun, hna]
            rw [hr]
            exact ⟨mk_showdown_sum order S0 (base + st.currentBet) st2 hole
              (deal_remaining b2 d2) hnd hrr.1 hrr.2, rfl⟩
          · have hr : run_streets acts order fuel hole bb postStart (n :: rest)
                board deck st =
                run_streets acts order fuel hole bb postStart rest b2 d2 st2 := by
              simp [run_streets, hdb, hrun, hna]
            rw [hr]
            exact ih b2 d2 st2 (base + st.currentBet) hrr.1 hrr.2

/-- With `big_fuel` and a deck covering the remaining streets,
`run_streets` returns. -/
theorem run_streets_terminates (acts : Nat → RawAction) (order : List Nat) (S0 : Int)
    (hole : Nat → List CardE) (bb : Int) (postStart : Nat) (hnd : order.Nodup) :
    ∀ (streets : List Nat) (board deck : List CardE) (st : RoundState) (base : Int),
    RoundInv order S0 base st → st.pending = ∅ → streets.sum ≤ deck.length →
    (run_streets acts order (big_fuel order S0) hole bb postStart streets
      board deck st).isSome = true := by
  intro streets
  induction streets with
  | nil =>
    intro board deck st base hInv hpe hlen
    rfl
  | cons n rest ih =>
    intro board deck st base hInv hpe hlen
    have hSt := round_end_to_street order S0 base bb st hInv hpe
    have hnle : n ≤ deck.length := by
      simp only [List.sum_cons] at hlen
      omega
    obtain ⟨b2, d2, hdb, hld⟩ := deal_board_some n board deck hnle
    have hrbr_inv := run_betting_round_inv acts order S0 (base + st.currentBet)
      (big_fuel order S0) (reset_street st bb) postStart hnd hSt
    have hrbr_t := run_betting_round_terminates acts order S0 (base + st.currentBet)
      (reset_street st bb) postStart hnd hSt
    cases hrun : run_betting_round acts order (big_fuel order S0)
        (reset_street st bb) postStart with
    | none =>
      rw [hrun] at hrbr_t
      exact absurd hrbr_t (by simp)
    | some pr2 =>
      obtain ⟨st2, wo⟩ := pr2
      rw [hrun] at hrbr_inv
      cases wo with
      | some w =>
        have hr : run_streets acts order (big_fuel order S0) hole bb postStart
            (n :: rest) board deck st = some (mk_folded_result order st2 w) := by
          simp [run_streets, hdb, hrun]
        rw [hr]
        rfl
      | none =>
        have hrr : RoundInv order S0 (base + st.currentBet) st2 ∧
            st2.pending = ∅ := hrbr_inv
        by_cases hna : no_actionable order st2.folded st2.stackOf = true
        · have hr : run_streets acts order (big_fuel order S0) hole bb postStart
              (n :: rest) board deck st =
              some (mk_showdown_result order st2 hole (deal_remaining b2 d2)) := by
            simp [run_streets, hdb, hrun, hna]
          rw [hr]
          rfl
        · have hr : run_streets acts order (big_fuel order S0) hole bb postStart
              (n :: rest) board deck st =
              run_streets acts order (big_fuel order S0) hole bb postStart
                rest b2 d2 st2 := by
            simp [run_streets, hdb, hrun, hna]
          rw [hr]
          refine ih b2 d2 st2 (base + st.currentBet) hrr.1 hrr.2 ?_
          simp only [List.sum_cons] at hlen
          omega



/-! ### Claim C1: deltas of a completed hand sum to zero -/

/-- C1.  For every completed hand produced by `play_hand` — any bot
behaviour `acts`, any shuffled deck, any fuel, at least two active
seats (`seats` nodup), non-negative starting stack and blinds with
`sb ≤ bb` — the deltas of the returned result sum to zero over the
active seats, in both the showdown path (side pots included) and the
folded-winner path. -/
theorem play_hand_deltas_sum (acts : Nat → RawAction) (deck0 : List CardE)
    (seats : List Nat) (button0 : Nat) (S0 sb bb : Int) (fuel : Nat)
    (res : HandResultE) (hnd : seats.Nodup) (hS0 : 0 ≤ S0) (hsb : 0 ≤ sb)
    (hbb : sb ≤ bb)
    (h : play_hand acts deck0 seats button0 S0 sb bb fuel = some res) :
    sum_over res.active_seats res.deltas = 0 := by
  have hnd2 : (seats.insertionSort (fun a b => a ≤ b)).Nodup :=
    (List.perm_insertionSort _ _).nodup_iff.mpr hnd
  by_cases hlt : (seats.insertionSort (fun a b => a ≤ b)).length < 2
  · have hr : play_hand acts deck0 seats button0 S0 sb bb fuel = none := by
      simp only [play_hand, if_pos hlt]
    rw [hr] at h
    cases h
  · have h2 : 2 ≤ (seats.insertionSort (fun a b => a ≤ b)).length := by omega
    cases hdeal : deal_hole (seats.insertionSort (fun a b => a ≤ b)) deck0 (fun _ => []) with
    | none =>
      have hr : play_hand acts deck0 seats button0 S0 sb bb fuel = none := by
        simp only [play_hand, if_neg hlt, hdeal]
      rw [hr] at h
      cases h
    | some pr =>
      obtain ⟨hole, deck1⟩ := pr
      have hbtn : (if button0 ∈ (seats.insertionSort (fun a b => a ≤ b)) then button0 else (seats.insertionSort (fun a b => a ≤ b)).headD 0) ∈ (seats.insertionSort (fun a b => a ≤ b)) := by
        by_cases hbm : button0 ∈ (seats.insertionSort (fun a b => a ≤ b))
        · simp only [if_pos hbm]
          exact hbm
        · simp only [if_neg hbm]
          cases hc : (seats.insertionSort (fun a b => a ≤ b)) with
          | nil =>
            rw [hc] at h2
            simp at h2
          | cons a t =>
            simp
      obtain ⟨hsbo, hbbo, hneq⟩ := blind_positions_spec (seats.insertionSort (fun a b => a ≤ b)) hnd2 h2 (if button0 ∈ (seats.insertionSort (fun a b => a ≤ b)) then button0 else (seats.insertionSort (fun a b => a ≤ b)).headD 0) hbtn
      have hSt := initial_street_inv (seats.insertionSort (fun a b => a ≤ b)) (blind_positions (seats.insertionSort (fun a b => a ≤ b)) (if button0 ∈ (seats.insertionSort (fun a b => a ≤ b)) then button0 else (seats.insertionSort (fun a b => a ≤ b)).headD 0)).1 (blind_positions (seats.insertionSort (fun a b => a ≤ b)) (if button0 ∈ (seats.insertionSort (fun a b => a ≤ b)) then button0 else (seats.insertionSort (fun a b => a ≤ b)).headD 0)).2.1 S0 sb bb h2 hsbo hbbo
        hneq hS0 hsb hbb
      have hrbr := run_betting_round_inv acts (seats.insertionSort (fun a b => a ≤ b)) S0 0 fuel { post_blind (post_blind { stackOf := fun _ => S0, bets := fun _ => 0, contribs := fun _ => 0, pot := 0, currentBet := 0, minRaise := 0, folded := ∅, pending := ∅, calls := 0 } (blind_positions (seats.insertionSort (fun a b => a ≤ b)) (if button0 ∈ (seats.insertionSort (fun a b => a ≤ b)) then button0 else (seats.insertionSort (fun a b => a ≤ b)).headD 0)).1 sb) (blind_positions (seats.insertionSort (fun a b => a ≤ b)) (if button0 ∈ (seats.insertionSort (fun a b => a ≤ b)) then button0 else (seats.insertionSort (fun a b => a ≤ b)).headD 0)).2.1 bb with currentBet := (post_blind (post_blind { stackOf := fun _ => S0, bets := fun _ => 0, contribs := fun _ => 0, pot := 0, currentBet := 0, minRaise := 0, folded := ∅, pending := ∅, calls := 0 } (blind_positions (seats.insertionSort (fun a b => a ≤ b)) (if button0 ∈ (seats.insertionSort (fun a b => a ≤ b)) then button0 else (seats.insertionSort (fun a b => a ≤ b)).headD 0)).1 sb) (blind_positions (seats.insertionSort (fun a b => a ≤ b)) (if button0 ∈ (seats.insertionSort (fun a b => a ≤ b)) then button0 else (seats.insertionSort (fun a b => a ≤ b)).headD 0)).2.1 bb).bets (blind_positions (seats.insertionSort (fun a b => a ≤ b)) (if button0 ∈ (seats.insertionSort (fun a b => a ≤ b)) then button0 else (seats.insertionSort (fun a b => a ≤ b)).headD 0)).2.1, minRaise := bb } (blind_positions (seats.insertionSort (fun a b => a ≤ b)) (if button0 ∈ (seats.insertionSort (fun a b => a ≤ b)) then button0 else (seats.insertionSort (fun a b => a ≤ b)).headD 0)).2.2.1 hnd2 hSt
      cases hrun : run_betting_round acts (seats.insertionSort (fun a b => a ≤ b)) fuel { post_blind (post_blind { stackOf := fun _ => S0, bets := fun _ => 0, contribs := fun _ => 0, pot := 0, currentBet := 0, minRaise := 0, folded := ∅, pending := ∅, calls := 0 } (blind_positions (seats.insertionSort (fun a b => a ≤ b)) (if button0 ∈ (seats.insertionSort (fun a b => a ≤ b)) then button0 else (seats.insertionSort (fun a b => a ≤ b)).headD 0)).1 sb) (blind_positions (seats.insertionSort (fun a b => a ≤ b)) (if button0 ∈ (seats.insertionSort (fun a b => a ≤ b)) then button0 else (seats.insertionSort (fun a b => a ≤ b)).headD 0)).2.1 bb with currentBet := (post_blind (post_blind { stackOf := fun _ => S0, bets := fun _ => 0, contribs := fun _ => 0, pot := 0, currentBet := 0, minRaise := 0, folded := ∅, pending := ∅, calls := 0 } (blind_positions (seats.insertionSort (fun a b => a ≤ b)) (if button0 ∈ (seats.insertionSort (fun a b => a ≤ b)) then button0 else (seats.insertionSort (fun a b => a ≤ b)).headD 0)).1 sb) (blind_positions (seats.insertionSort (fun a b => a ≤ b)) (if button0 ∈ (seats.insertionSort (fun a b => a ≤ b)) then button0 else (seats.insertionSort (fun a b => a ≤ b)).headD 0)).2.1 bb).bets (blind_positions (seats.insertionSort (fun a b => a ≤ b)) (if button0 ∈ (seats.insertionSort (fun a b => a ≤ b)) then button0 else (seats.insertionSort (fun a b => a ≤ b)).headD 0)).2.1, minRaise := bb } (blind_positions (seats.insertionSort (fun a b => a ≤ b)) (if button0 ∈ (seats.insertionSort (fun a b => a ≤ b)) then button0 else (seats.insertionSort (fun a b => a ≤ b)).headD 0)).2.2.1 with
      | none =>
        have hr : play_hand acts deck0 seats button0 S0 sb bb fuel = none := by
          simp only [play_hand, if_neg hlt, hdeal, hrun]
        rw [hr] at h
        cases h
      | some pr2 =>
        obtain ⟨st4, wo⟩ := pr2
        rw [hrun] at hrbr
        cases wo with
        | some w =>
          have hw : w ∈ (seats.insertionSort (fun a b => a ≤ b)) := hrbr
          have hr : play_hand acts deck0 seats button0 S0 sb bb fuel =
              some (mk_folded_result (seats.insertionSort (fun a b => a ≤ b)) st4 w) := by
            simp only [play_hand, if_neg hlt, hdeal, hrun]
          rw [hr] at h
          cases Option.some.inj h
          exact mk_folded_sum (seats.insertionSort (fun a b => a ≤ b)) st4 w hnd2 hw
        | none =>
          have hrrr : RoundInv (seats.insertionSort (fun a b => a ≤ b)) S0 0 st4 ∧ st4.pending = ∅ := hrbr
          by_cases hna : no_actionable (seats.insertionSort (fun a b => a ≤ b)) st4.folded st4.stackOf = true
          · have hr : play_hand acts deck0 seats button0 S0 sb bb fuel =
                some (mk_showdown_result (seats.insertionSort (fun a b => a ≤ b)) st4 hole (deal_remaining [] deck1)) := by
              simp only [play_hand, if_neg hlt, hdeal, hrun, if_pos hna]
            rw [hr] at h
            cases Option.some.inj h
            exact mk_showdown_sum (seats.insertionSort (fun a b => a ≤ b)) S0 0 st4 hole (deal_remaining [] deck1)
              hnd2 hrrr.1 hrrr.2
          · have hr : play_hand acts deck0 seats button0 S0 sb bb fuel =
                run_streets acts (seats.insertionSort (fun a b => a ≤ b)) fuel hole bb (blind_positions (seats.insertionSort (fun a b => a ≤ b)) (if button0 ∈ (seats.insertionSort (fun a b => a ≤ b)) then button0 else (seats.insertionSort (fun a b => a ≤ b)).headD 0)).2.2.2 [3, 1, 1] [] deck1 st4 := by
              simp only [play_hand, if_neg hlt, hdeal, hrun, if_neg hna]
            rw [hr] at h
            have hrs := run_streets_inv acts (seats.insertionSort (fun a b => a ≤ b)) S0 fuel hole bb (blind_positions (seats.insertionSort (fun a b => a ≤ b)) (if button0 ∈ (seats.insertionSort (fun a b => a ≤ b)) then button0 else (seats.insertionSort (fun a b => a ≤ b)).headD 0)).2.2.2 hnd2
              [3, 1, 1] [] deck1 st4 0 hrrr.1 hrrr.2
            rw [h] at hrs
            have hfin : sum_over (seats.insertionSort (fun a b => a ≤ b)) res.deltas = 0 ∧
                res.active_seats = (seats.insertionSort (fun a b => a ≤ b)) := hrs
            rw [hfin.2]
            exact hfin.1

/-- C1 witness: a concrete two-seat hand (the small blind folds to the
fallback action immediately) whose deltas sum to zero. -/
theorem play_hand_deltas_sum_witness :
    play_hand (fun _ => RawAction.notDict)
        [⟨2, 0⟩, ⟨3, 1⟩, ⟨4, 2⟩, ⟨5, 3⟩] [1, 2] 1 100 1 2 9 =
      some ((play_hand (fun _ => RawAction.notDict)
          [⟨2, 0⟩, ⟨3, 1⟩, ⟨4, 2⟩, ⟨5, 3⟩] [1, 2] 1 100 1 2 9).getD
        ⟨[], 0, fun _ => 0, []⟩) ∧
    sum_over ((play_hand (fun _ => RawAction.notDict)
        [⟨2, 0⟩, ⟨3, 1⟩, ⟨4, 2⟩, ⟨5, 3⟩] [1, 2] 1 100 1 2 9).getD
      ⟨[], 0, fun _ => 0, []⟩).active_seats
      ((play_hand (fun _ => RawAction.notDict)
        [⟨2, 0⟩, ⟨3, 1⟩, ⟨4, 2⟩, ⟨5, 3⟩] [1, 2] 1 100 1 2 9).getD
      ⟨[], 0, fun _ => 0, []⟩).deltas = 0 := by
  constructor
  · rfl
  · exact play_hand_deltas_sum (fun _ => RawAction.notDict)
      [⟨2, 0⟩, ⟨3, 1⟩, ⟨4, 2⟩, ⟨5, 3⟩] [1, 2] 1 100 1 2 9 _
      (by decide) (by decide) (by decide) (by decide) rfl

/-! ### Claim C4: the betting loop terminates and one hand is played -/

/-- C4.  For every finite initial configuration (nodup seats, at least
two of them, non-negative starting stack, ordered non-negative blinds,
a deck covering the deal) and every sequence of bot responses
whatsoever, the betting loops of `play_hand` terminate: a computable
fuel bound makes `play_hand` return, even though a bet or raise resets
`pending` to all other live seats (the measure `round_measure`
strictly decreases every iteration). -/
theorem play_hand_terminates (acts : Nat → RawAction) (deck0 : List CardE)
    (seats : List Nat) (button0 : Nat) (S0 sb bb : Int)
    (hnd : seats.Nodup) (h2s : 2 ≤ seats.length) (hS0 : 0 ≤ S0) (hsb : 0 ≤ sb)
    (hbb : sb ≤ bb) (hdeck : 2 * seats.length + 5 ≤ deck0.length) :
    ∃ fuel, (play_hand acts deck0 seats button0 S0 sb bb fuel).isSome = true := by
  refine ⟨big_fuel (seats.insertionSort (fun a b => a ≤ b)) S0, ?_⟩
  have hnd2 : (seats.insertionSort (fun a b => a ≤ b)).Nodup :=
    (List.perm_insertionSort _ _).nodup_iff.mpr hnd
  have hleno : (seats.insertionSort (fun a b => a ≤ b)).length = seats.length :=
    (List.perm_insertionSort _ _).length_eq
  have hlt : ¬ ((seats.insertionSort (fun a b => a ≤ b)).length < 2) := by omega
  have h2 : 2 ≤ (seats.insertionSort (fun a b => a ≤ b)).length := by omega
  obtain ⟨hole, deck1, hdeal, hld⟩ := deal_hole_some (seats.insertionSort (fun a b => a ≤ b)) deck0 (fun _ => [])
    (by omega)
  have hbtn : (if button0 ∈ (seats.insertionSort (fun a b => a ≤ b)) then button0 else (seats.insertionSort (fun a b => a ≤ b)).headD 0) ∈ (seats.insertionSort (fun a b => a ≤ b)) := by
    by_cases hbm : button0 ∈ (seats.insertionSort (fun a b => a ≤ b))
    · simp only [if_pos hbm]
      exact hbm
    · simp only [if_neg hbm]
      cases hc : (seats.insertionSort (fun a b => a ≤ b)) with
      | nil =>
        rw [hc] at h2
        simp at h2
      | cons a t =>
        simp
  obtain ⟨hsbo, hbbo, hneq⟩ := blind_positions_spec (seats.insertionSort (fun a b => a ≤ b)) hnd2 h2 (if button0 ∈ (seats.insertionSort (fun a b => a ≤ b)) then button0 else (seats.insertionSort (fun a b => a ≤ b)).headD 0) hbtn
  have hSt := initial_street_inv (seats.insertionSort (fun a b => a ≤ b)) (blind_positions (seats.insertionSort (fun a b => a ≤ b)) (if button0 ∈ (seats.insertionSort (fun a b => a ≤ b)) then button0 else (seats.insertionSort (fun a b => a ≤ b)).headD 0)).1 (blind_positions (seats.insertionSort (fun a b => a ≤ b)) (if button0 ∈ (seats.insertionSort (fun a b => a ≤ b)) then button0 else (seats.insertionSort (fun a b => a ≤ b)).headD 0)).2.1 S0 sb bb h2 hsbo hbbo
    hneq hS0 hsb hbb
  have hrbr_t := run_betting_round_terminates acts (seats.insertionSort (fun a b => a ≤ b)) S0 0 { post_blind (post_blind { stackOf := fun _ => S0, bets := fun _ => 0, contribs := fun _ => 0, pot := 0, currentBet := 0, minRaise := 0, folded := ∅, pending := ∅, calls := 0 } (blind_positions (seats.insertionSort (fun a b => a ≤ b)) (if button0 ∈ (seats.insertionSort (fun a b => a ≤ b)) then button0 else (seats.insertionSort (fun a b => a ≤ b)).headD 0)).1 sb) (blind_positions (seats.insertionSort (fun a b => a ≤ b)) (if button0 ∈ (seats.insertionSort (fun a b => a ≤ b)) then button0 else (seats.insertionSort (fun a b => a ≤ b)).headD 0)).2.1 bb with currentBet := (post_blind (post_blind { stackOf := fun _ => S0, bets := fun _ => 0, contribs := fun _ => 0, pot := 0, currentBet := 0, minRaise := 0, folded := ∅, pending := ∅, calls := 0 } (blind_positions (seats.insertionSort (fun a b => a ≤ b)) (if button0 ∈ (seats.insertionSort (fun a b => a ≤ b)) then button0 else (seats.insertionSort (fun a b => a ≤ b)).headD 0)).1 sb) (blind_positions (seats.insertionSort (fun a b => a ≤ b)) (if button0 ∈ (seats.insertionSort (fun a b => a ≤ b)) then button0 else (seats.insertionSort (fun a b => a ≤ b)).headD 0)).2.1 bb).bets (blind_positions (seats.insertionSort (fun a b => a ≤ b)) (if button0 ∈ (seats.insertionSort (fun a b => a ≤ b)) then button0 else (seats.insertionSort (fun a b => a ≤ b)).headD 0)).2.1, minRaise := bb } (blind_positions (seats.insertionSort (fun a b => a ≤ b)) (if button0 ∈ (seats.insertionSort (fun a b => a ≤ b)) then button0 else (seats.insertionSort (fun a b => a ≤ b)).headD 0)).2.2.1 hnd2 hSt
  have hrbr_inv := run_betting_round_inv acts (seats.insertionSort (fun a b => a ≤ b)) S0 0 (big_fuel (seats.insertionSort (fun a b => a ≤ b)) S0) { post_blind (post_blind { stackOf := fun _ => S0, bets := fun _ => 0, contribs := fun _ => 0, pot := 0, currentBet := 0, minRaise := 0, folded := ∅, pending := ∅, calls := 0 } (blind_positions (seats.insertionSort (fun a b => a ≤ b)) (if button0 ∈ (seats.insertionSort (fun a b => a ≤ b)) then button0 else (seats.insertionSort (fun a b => a ≤ b)).headD 0)).1 sb) (blind_positions (seats.insertionSort (fun a b => a ≤ b)) (if button0 ∈ (seats.insertionSort (fun a b => a ≤ b)) then button0 else (seats.insertionSort (fun a b => a ≤ b)).headD 0)).2.1 bb with currentBet := (post_blind (post_blind { stackOf := fun _ => S0, bets := fun _ => 0, contribs := fun _ => 0, pot := 0, currentBet := 0, minRaise := 0, folded := ∅, pending := ∅, calls := 0 } (blind_positions (seats.insertionSort (fun a b => a ≤ b)) (if button0 ∈ (seats.insertionSort (fun a b => a ≤ b)) then button0 else (seats.insertionSort (fun a b => a ≤ b)).headD 0)).1 sb) (blind_positions (seats.insertionSort (fun a b => a ≤ b)) (if button0 ∈ (seats.insertionSort (fun a b => a ≤ b)) then button0 else (seats.insertionSort (fun a b => a ≤ b)).headD 0)).2.1 bb).bets (blind_positions (seats.insertionSort (fun a b => a ≤ b)) (if button0 ∈ (seats.insertionSort (fun a b => a ≤ b)) then button0 else (seats.insertionSort (fun a b => a ≤ b)).headD 0)).2.1, minRaise := bb } (blind_positions (seats.insertionSort (fun a b => a ≤ b)) (if button0 ∈ (seats.insertionSort (fun a b => a ≤ b)) then button0 else (seats.insertionSort (fun a b => a ≤ b)).headD 0)).2.2.1 hnd2 hSt
  cases hrun : run_betting_round acts (seats.insertionSort (fun a b => a ≤ b)) (big_fuel (seats.insertionSort (fun a b => a ≤ b)) S0) { post_blind (post_blind { stackOf := fun _ => S0, bets := fun _ => 0, contribs := fun _ => 0, pot := 0, currentBet := 0, minRaise := 0, folded := ∅, pending := ∅, calls := 0 } (blind_positions (seats.insertionSort (fun a b => a ≤ b)) (if button0 ∈ (seats.insertionSort (fun a b => a ≤ b)) then button0 else (seats.insertionSort (fun a b => a ≤ b)).headD 0)).1 sb) (blind_positions (seats.insertionSort (fun a b => a ≤ b)) (if button0 ∈ (seats.insertionSort (fun a b => a ≤ b)) then button0 else (seats.insertionSort (fun a b => a ≤ b)).headD 0)).2.1 bb with currentBet := (post_blind (post_blind { stackOf := fun _ => S0, bets := fun _ => 0, contribs := fun _ => 0, pot := 0, currentBet := 0, minRaise := 0, folded := ∅, pending := ∅, calls := 0 } (blind_positions (seats.insertionSort (fun a b => a ≤ b)) (if button0 ∈ (seats.insertionSort (fun a b => a ≤ b)) then button0 else (seats.insertionSort (fun a b => a ≤ b)).headD 0)).1 sb) (blind_positions (seats.insertionSort (fun a b => a ≤ b)) (if button0 ∈ (seats.insertionSort (fun a b => a ≤ b)) then button0 else (seats.insertionSort (fun a b => a ≤ b)).headD 0)).2.1 bb).bets (blind_positions (seats.insertionSort (fun a b => a ≤ b)) (if button0 ∈ (seats.insertionSort (fun a b => a ≤ b)) then button0 else (seats.insertionSort (fun a b => a ≤ b)).headD 0)).2.1, minRaise := bb } (blind_positions (seats.insertionSort (fun a b => a ≤ b)) (if button0 ∈ (seats.insertionSort (fun a b => a ≤ b)) then button0 else (seats.insertionSort (fun a b => a ≤ b)).headD 0)).2.2.1 with
  | none =>
    rw [hrun] at hrbr_t
    exact absurd hrbr_t (by simp)
  | some pr2 =>
    obtain ⟨st4, wo⟩ := pr2
    rw [hrun] at hrbr_inv
    cases wo with
    | some w =>
      have hr : play_hand acts deck0 seats button0 S0 sb bb (big_fuel (seats.insertionSort (fun a b => a ≤ b)) S0) =
          some (mk_folded_result (seats.insertionSort (fun a b => a ≤ b)) st4 w) := by
        simp only [play_hand, if_neg hlt, hdeal, hrun]
      rw [hr]
      rfl
    | none =>
      have hrrr : RoundInv (seats.insertionSort (fun a b => a ≤ b)) S0 0 st4 ∧ st4.pending = ∅ := hrbr_inv
      by_cases hna : no_actionable (seats.insertionSort (fun a b => a ≤ b)) st4.folded st4.stackOf = true
      · have hr : play_hand acts deck0 seats button0 S0 sb bb (big_fuel (seats.insertionSort (fun a b => a ≤ b)) S0) =
            some (mk_showdown_result (seats.insertionSort (fun a b => a ≤ b)) st4 hole (deal_remaining [] deck1)) := by
          simp only [play_hand, if_neg hlt, hdeal, hrun, if_pos hna]
        rw [hr]
        rfl
      · have hr : play_hand acts deck0 seats button0 S0 sb bb (big_fuel (seats.insertionSort (fun a b => a ≤ b)) S0) =
            run_streets acts (seats.insertionSort (fun a b => a ≤ b)) (big_fuel (seats.insertionSort (fun a b => a ≤ b)) S0) hole bb (blind_positions (seats.insertionSort (fun a b => a ≤ b)) (if button0 ∈ (seats.insertionSort (fun a b => a ≤ b)) then button0 else (seats.insertionSort (fun a b => a ≤ b)).headD 0)).2.2.2
              [3, 1, 1] [] deck1 st4 := by
          simp only [play_hand, if_neg hlt, hdeal, hrun, if_neg hna]
        rw [hr]
        refine run_streets_terminates acts (seats.insertionSort (fun a b => a ≤ b)) S0 hole bb (blind_positions (seats.insertionSort (fun a b => a ≤ b)) (if button0 ∈ (seats.insertionSort (fun a b => a ≤ b)) then button0 else (seats.insertionSort (fun a b => a ≤ b)).headD 0)).2.2.2 hnd2
          [3, 1, 1] [] deck1 st4 0 hrrr.1 hrrr.2 ?_
        simp only [List.sum_cons, List.sum_nil]
        omega

/-- C4 witness: a concrete two-seat configuration with a nine-card deck
for which `play_hand` returns. -/
theorem play_hand_terminates_witness :
    ([1, 2] : List Nat).Nodup ∧
    (∃ fuel, (play_hand (fun _ => RawAction.notDict)
      [⟨2, 0⟩, ⟨3, 1⟩, ⟨4, 2⟩, ⟨5, 3⟩, ⟨6, 0⟩, ⟨7, 1⟩, ⟨8, 2⟩, ⟨9, 3⟩, ⟨10, 0⟩]
      [1, 2] 1 100 1 2 fuel).isSome = true) := by
  refine ⟨by decide, ?_⟩
  exact play_hand_terminates (fun _ => RawAction.notDict)
    [⟨2, 0⟩, ⟨3, 1⟩, ⟨4, 2⟩, ⟨5, 3⟩, ⟨6, 0⟩, ⟨7, 1⟩, ⟨8, 2⟩, ⟨9, 3⟩, ⟨10, 0⟩]
    [1, 2] 1 100 1 2 (by decide) (by decide) (by decide) (by decide) (by decide)
    (by decide)


/-! ### Claim C2: the three hand invariants hold throughout a hand -/

/-- C2.  Throughout one call of `play_hand` the state keeps the three
claimed invariants (`HandInvariants`: Σ stacks + Σ contributions =
number of active seats × starting stack; `bets[s] ≤ contributions[s]`;
folded ⊆ active seats): (i) they hold right after the blinds are
posted; (ii) every applied bot action of the betting loop preserves
them together with the loop invariant they follow from, on every
street; (iii) the between-street reset preserves them. -/
theorem play_hand_invariants :
    (∀ (order : List Nat) (sbSeat bbSeat : Nat) (S0 sb bb : Int),
      2 ≤ order.length → sbSeat ∈ order → bbSeat ∈ order → sbSeat ≠ bbSeat →
      0 ≤ S0 → 0 ≤ sb → sb ≤ bb →
      HandInvariants order S0 { post_blind (post_blind { stackOf := fun _ => S0, bets := fun _ => 0, contribs := fun _ => 0, pot := 0, currentBet := 0, minRaise := 0, folded := ∅, pending := ∅, calls := 0 } sbSeat sb) bbSeat bb with currentBet := (post_blind (post_blind { stackOf := fun _ => S0, bets := fun _ => 0, contribs := fun _ => 0, pot := 0, currentBet := 0, minRaise := 0, folded := ∅, pending := ∅, calls := 0 } sbSeat sb) bbSeat bb).bets bbSeat, minRaise := bb }) ∧
    (∀ (acts : Nat → RawAction) (order : List Nat) (S0 base : Int)
      (st : RoundState) (cur : Nat), order.Nodup →
      RoundInv order S0 base st → cur ∈ st.pending →
      match step_round acts order st cur with
      | .next st2 _ => RoundInv order S0 base st2 ∧ HandInvariants order S0 st2
      | .winner st2 _ => HandInvariants order S0 st2
      | .over st2 => RoundInv order S0 base st2 ∧ HandInvariants order S0 st2) ∧
    (∀ (order : List Nat) (S0 base bb : Int) (st : RoundState),
      RoundInv order S0 base st → HandInvariants order S0 (reset_street st bb)) := by
  refine ⟨?_, ?_, ?_⟩
  · intro order sbSeat bbSeat S0 sb bb h2 hsbo hbbo hneq hS0 hsb hbb
    exact streetInv_hand_invariants order S0 0 _
      (initial_street_inv order sbSeat bbSeat S0 sb bb h2 hsbo hbbo hneq hS0 hsb hbb)
  · intro acts order S0 base st cur hnd hInv hcur
    have hstep := step_round_spec acts order S0 base st cur hnd hInv hcur
    cases hout : step_round acts order st cur with
    | next st2 s2 =>
      rw [hout] at hstep
      exact ⟨hstep.1, roundInv_hand_invariants order S0 base st2 hstep.1⟩
    | winner st2 w =>
      rw [hout] at hstep
      exact hstep.2
    | over st2 =>
      rw [hout] at hstep
      exact ⟨hstep.1, roundInv_hand_invariants order S0 base st2 hstep.1⟩
  · intro order S0 base bb st hInv
    have hh := roundInv_hand_invariants order S0 base st hInv
    refine ⟨hh.1, ?_, hh.2.2⟩
    intro s hs
    show (0 : Int) ≤ st.contribs s
    have h1 := hInv.betsNN s hs
    have h2 := hInv.betsLeContrib s hs
    omega

/-- C2 witness: the invariants at a concrete blind-posted state, and
preserved by the reset from a concrete mid-hand state satisfying the
loop invariant. -/
theorem play_hand_invariants_witness :
    HandInvariants [1, 2] 100 { post_blind (post_blind { stackOf := fun _ => (100 : Int), bets := fun _ => 0, contribs := fun _ => 0, pot := 0, currentBet := 0, minRaise := 0, folded := ∅, pending := ∅, calls := 0 } 1 1) 2 2 with currentBet := (post_blind (post_blind { stackOf := fun _ => (100 : Int), bets := fun _ => 0, contribs := fun _ => 0, pot := 0, currentBet := 0, minRaise := 0, folded := ∅, pending := ∅, calls := 0 } 1 1) 2 2).bets 2, minRaise := 2 } ∧
    HandInvariants [1, 2] 100
      (reset_street ⟨fun _ => 100, fun _ => 0, fun _ => 0, 0, 0, 2, ∅, {1, 2}, 0⟩ 2) := by
  constructor
  · exact play_hand_invariants.1 [1, 2] 1 2 100 1 2 (by decide) (by decide)
      (by decide) (by decide) (by decide) (by decide) (by decide)
  · refine play_hand_invariants.2.2 [1, 2] 100 0 2 _ ?_
    exact ⟨by decide, by decide, by decide, by decide, by decide, by decide,
      by decide, by decide, by decide, by decide, by decide, by decide,
      by decide, by decide⟩

/-! ### Claim C10: stacks never go negative -/

/-- C10 (implicit).  At every point of `play_hand` every stack is
non-negative: each chip-moving primitive — blind posting
(`min(blind, stack)`), a call (`min(to_call, stack)`), a bet or raise
(`min(target - bet, stack)` after clamping below at 0) — preserves
non-negativity of every stack whatever amount was requested, and the
betting-loop invariant records `0 ≤ stack` for every active seat. -/
theorem stacks_never_negative :
    (∀ (st : RoundState) (seat : Nat) (amount : Int), (∀ s, 0 ≤ st.stackOf s) →
      ∀ s, 0 ≤ (post_blind st seat amount).stackOf s) ∧
    (∀ (st : RoundState) (seat : Nat) (amount : Int), (∀ s, 0 ≤ st.stackOf s) →
      ∀ s, 0 ≤ (apply_call st seat amount).stackOf s) ∧
    (∀ (order : List Nat) (st : RoundState) (seat : Nat) (amount : Int),
      (∀ s, 0 ≤ st.stackOf s) →
      ∀ s, 0 ≤ (apply_bet_raise order st seat amount).stackOf s) ∧
    (∀ (order : List Nat) (S0 base : Int) (st : RoundState),
      RoundInv order S0 base st → ∀ s ∈ order, 0 ≤ st.stackOf s) := by
  refine ⟨?_, ?_, ?_, ?_⟩
  · intro st seat amount h s
    show 0 ≤ upd st.stackOf seat
      (st.stackOf seat - min amount (st.stackOf seat)) s
    by_cases hs : s = seat
    · subst hs
      rw [upd_same]
      have := h s
      omega
    · rw [upd_other _ _ _ _ hs]
      exact h s
  · intro st seat amount h s
    show 0 ≤ upd st.stackOf seat
      (st.stackOf seat - min amount (st.stackOf seat)) s
    by_cases hs : s = seat
    · subst hs
      rw [upd_same]
      have := h s
      omega
    · rw [upd_other _ _ _ _ hs]
      exact h s
  · intro order st seat amount h s
    show 0 ≤ upd st.stackOf seat
      (st.stackOf seat - min (max (amount - st.bets seat) 0) (st.stackOf seat)) s
    by_cases hs : s = seat
    · subst hs
      rw [upd_same]
      have := h s
      omega
    · rw [upd_other _ _ _ _ hs]
      exact h s
  · intro order S0 base st hInv s hs
    exact hInv.stacksNN s hs

/-- C10 witness: a requested amount far above the stack leaves every
stack non-negative through each primitive. -/
theorem stacks_never_negative_witness :
    (∀ s, (0 : Int) ≤ (post_blind
      ⟨fun _ => 5, fun _ => 0, fun _ => 0, 0, 0, 0, ∅, ∅, 0⟩ 1 999).stackOf s) ∧
    (∀ s, (0 : Int) ≤ (apply_call
      ⟨fun _ => 5, fun _ => 0, fun _ => 0, 0, 0, 0, ∅, ∅, 0⟩ 1 999).stackOf s) ∧
    (∀ s, (0 : Int) ≤ (apply_bet_raise [1, 2]
      ⟨fun _ => 5, fun _ => 0, fun _ => 0, 0, 0, 0, ∅, ∅, 0⟩ 1 999).stackOf s) := by
  refine ⟨?_, ?_, ?_⟩
  · exact stacks_never_negative.1 _ 1 999 (fun s => by show (0 : Int) ≤ 5; decide)
  · exact stacks_never_negative.2.1 _ 1 999 (fun s => by show (0 : Int) ≤ 5; decide)
  · exact stacks_never_negative.2.2.1 [1, 2] _ 1 999
      (fun s => by show (0 : Int) ≤ 5; decide)

end PokerBots
